import Mathlib

/-!
Verification of an MCTS decision engine (two environments: a 3x3 / parameterized
N-in-a-row board game, and a single-player blackjack-style card game) against its
natural-language specification.

Shallow embedding conventions:
* Python floats are modelled as real numbers; `float('inf')` / `float('-inf')`
  become `⊤` / `⊥` in `EReal`.
* Python ints are `ℤ` (board cells, players, rewards) or `ℕ` (indices, counts).
* numpy boards are flat lists of `ℤ` (cell `(i, j)` at index `i * size + j`).
* Mutating methods become functions returning the updated value; the chain of
  `parent` pointers used by backpropagation becomes an explicit list / path.
* `random.choice` / `np.random.randint` draw from an explicit stream
  `g : ℕ → ℕ` consumed at an index `k` that is threaded through.
* Python runtime errors (AttributeError on `None`, `random.choice([])`) and
  divergence (modelled with fuel) surface as `Except Err`.
-/

/-- Runtime failures of the Python code, as a value. -/
inductive Err where
  /-- `AttributeError`: `.action` (or another attribute) taken on `None`. -/
  | attributeError
  /-- `random.choice` applied to an empty list (`IndexError`). -/
  | emptyChoice
  /-- Fuel exhausted: marks a run the model cannot finish (divergence marker). -/
  | fuelExhausted
  deriving DecidableEq

/-- Contract errors named by the specification (§4.1 / §7); the code never
raises them — this type exists to state the spec's claimed behaviour. -/
inductive ContractError where
  | invalidAction
  | terminalStateError
  deriving DecidableEq

/-- Winner tag stored in the `info` dictionary of `step`. -/
inductive Wtag where
  | X
  | O
  | Draw
  deriving DecidableEq

/-- The `info` dictionary returned by `step`. -/
inductive Info where
  /-- `{"winner": None | "X" | "O" | "Draw"}` -/
  | winner (w : Option Wtag)
  /-- `{"info": "Game already finished"}` -/
  | alreadyFinished
  /-- `{"info": "Invalid move"}` -/
  | invalidMove
  deriving DecidableEq

namespace T3
/-! ## `ttt.py`: the 3x3 TicTacToeEnv -/

/-- Environment state of `ttt.py`: 3x3 board (flat list, `0` empty, `1` X,
`-1` O), current player, done flag. -/
structure Env where
  board : List ℤ
  current_player : ℤ
  done : Bool
  deriving DecidableEq

/-- Board cell access `board[i, j]` at flat index. -/
def bget (b : List ℤ) (i : ℕ) : ℤ := b.getD i 0

/-- `check_winner` of `ttt.py`: row/column/diagonal sums of absolute value 3,
checked in source order, returning the first matching line's anchor cell. -/
def check_winnerB (b : List ℤ) : ℤ :=
  if (bget b 0 + bget b 1 + bget b 2).natAbs = 3 then bget b 0
  else if (bget b 3 + bget b 4 + bget b 5).natAbs = 3 then bget b 3
  else if (bget b 6 + bget b 7 + bget b 8).natAbs = 3 then bget b 6
  else if (bget b 0 + bget b 3 + bget b 6).natAbs = 3 then bget b 0
  else if (bget b 1 + bget b 4 + bget b 7).natAbs = 3 then bget b 1
  else if (bget b 2 + bget b 5 + bget b 8).natAbs = 3 then bget b 2
  else if (bget b 0 + bget b 4 + bget b 8).natAbs = 3 then bget b 0
  else if (bget b 2 + bget b 4 + bget b 6).natAbs = 3 then bget b 2
  else 0

/-- `check_winner` as a method on the environment. -/
def check_winner (e : Env) : ℤ := check_winnerB e.board

/-- `get_valid_actions`: flat indices of empty cells, in row-major order. -/
def validOfBoard (b : List ℤ) : List ℕ :=
  (List.range 9).filter (fun a => bget b a = 0)

/-- `get_valid_actions` as a method on the environment. -/
def get_valid_actions (e : Env) : List ℕ := validOfBoard e.board

/-- `is_done`: a winner exists or no empty cell remains. -/
def is_doneB (b : List ℤ) : Bool :=
  decide (check_winnerB b ≠ 0) || (validOfBoard b).isEmpty

/-- Result tuple of `step`: the environment after the call (Python mutates
`self`), plus the returned `(state, reward, done, truncated, info)`. -/
structure StepOut where
  env : Env
  obs : List ℤ
  reward : ℤ
  doneFlag : Bool
  truncated : Bool
  info : Info
  deriving DecidableEq

/-- `TicTacToeEnv.step` of `ttt.py` (lines 49-85): returns sentinel tuples on a
finished game or an occupied cell, otherwise places the mark, detects
win / draw, and flips the player only if the game continues. -/
def step (e : Env) (action : ℕ) : StepOut :=
  if e.done then ⟨e, e.board, 0, true, false, .alreadyFinished⟩
  else
    let idx := action / 3 * 3 + action % 3
    if bget e.board idx ≠ 0 then ⟨e, e.board, -1, false, false, .invalidMove⟩
    else
      let b := e.board.set idx e.current_player
      let w := check_winnerB b
      if w ≠ 0 then
        ⟨⟨b, e.current_player, true⟩, b, w * e.current_player, true, false,
          .winner (some (if w = 1 then .X else .O))⟩
      else if validOfBoard b = [] then
        ⟨⟨b, e.current_player, true⟩, b, 0, true, false, .winner (some .Draw)⟩
      else
        ⟨⟨b, -e.current_player, false⟩, b, 0, false, false, .winner none⟩

/-- The environment produced by `TicTacToeEnv()`'s constructor (which ends in
`reset()`): empty board, player 1, done recomputed. -/
def mkEnv : Env :=
  let b0 : List ℤ := List.replicate 9 0
  { board := b0, current_player := 1, done := is_doneB b0 }

/-- `TicTacToeEnv.clone` (lines 150-156): construct a fresh env, then copy the
board, player and done flag. -/
def clone (e : Env) : Env :=
  { mkEnv with board := e.board, current_player := e.current_player, done := e.done }

/-- Modelled from the spec (§4.1 / §7): the error behaviour the specification
claims for `apply` — TerminalStateError on a terminal state, InvalidAction on
an action outside `legalActions`; otherwise the normal transition. Used only
to contrast with the code's actual `step`. -/
def stepSpec (e : Env) (action : ℕ) : Except ContractError StepOut :=
  if e.done then .error .terminalStateError
  else if action ∈ get_valid_actions e then .ok (step e action)
  else .error .invalidAction

end T3

namespace T5
/-! ## `ttt5.py`: the size-parameterized N-in-a-row TicTacToeEnv -/

/-- Environment state of `ttt5.py`. -/
structure Env where
  size : ℕ
  win_length : ℕ
  board : List ℤ
  current_player : ℤ
  done : Bool
  deriving DecidableEq

/-- Board cell access at flat index. -/
def bget (e : Env) (i : ℕ) : ℤ := e.board.getD i 0

/-- Sum of the board values of a list of flat cell indices (one window). -/
def wsum (e : Env) (cells : List ℕ) : ℤ := (cells.map (fun c => bget e c)).sum

/-- Anchors of winning horizontal windows, in the source's scan order. -/
def rowHits (e : Env) : List ℤ :=
  (List.range e.size).flatMap (fun i =>
    (((List.range (e.size - e.win_length + 1)).filter (fun j =>
        (wsum e ((List.range e.win_length).map (fun t => i * e.size + (j + t)))).natAbs
          = e.win_length)).map (fun j => bget e (i * e.size + j))))

/-- Anchors of winning vertical windows. -/
def colHits (e : Env) : List ℤ :=
  (List.range (e.size - e.win_length + 1)).flatMap (fun i =>
    (((List.range e.size).filter (fun j =>
        (wsum e ((List.range e.win_length).map (fun t => (i + t) * e.size + j))).natAbs
          = e.win_length)).map (fun j => bget e (i * e.size + j))))

/-- Anchors of winning top-left-to-bottom-right diagonal windows. -/
def diagHits (e : Env) : List ℤ :=
  (List.range (e.size - e.win_length + 1)).flatMap (fun i =>
    (((List.range (e.size - e.win_length + 1)).filter (fun j =>
        (wsum e ((List.range e.win_length).map (fun t => (i + t) * e.size + (j + t)))).natAbs
          = e.win_length)).map (fun j => bget e (i * e.size + j))))

/-- Anchors of winning top-right-to-bottom-left diagonal windows
(`j` ranges over `win_length - 1 .. size - 1`). -/
def adiagHits (e : Env) : List ℤ :=
  (List.range (e.size - e.win_length + 1)).flatMap (fun i =>
    ((((List.range (e.size - (e.win_length - 1))).map (fun j => j + (e.win_length - 1))).filter
        (fun j =>
        (wsum e ((List.range e.win_length).map (fun t => (i + t) * e.size + (j - t)))).natAbs
          = e.win_length)).map (fun j => bget e (i * e.size + j))))

/-- `check_winner` of `ttt5.py` (lines 90-122): first winning window's anchor
cell in scan order (rows, then columns, then the two diagonal directions),
else 0. -/
def check_winner (e : Env) : ℤ :=
  (rowHits e ++ colHits e ++ diagHits e ++ adiagHits e).headD 0

/-- `get_valid_actions`: flat indices of empty cells. -/
def get_valid_actions (e : Env) : List ℕ :=
  (List.range (e.size * e.size)).filter (fun a => bget e a = 0)

/-- `is_done`: winner exists or board full. -/
def is_doneE (e : Env) : Bool :=
  decide (check_winner e ≠ 0) || (get_valid_actions e).isEmpty

/-- Result tuple of `step` (same shape as for `ttt.py`). -/
structure StepOut where
  env : Env
  obs : List ℤ
  reward : ℤ
  doneFlag : Bool
  truncated : Bool
  info : Info
  deriving DecidableEq

/-- `TicTacToeEnv.step` of `ttt5.py` (lines 53-88). -/
def step (e : Env) (action : ℕ) : StepOut :=
  if e.done then ⟨e, e.board, 0, true, false, .alreadyFinished⟩
  else
    let idx := action / e.size * e.size + action % e.size
    if bget e idx ≠ 0 then ⟨e, e.board, -1, false, false, .invalidMove⟩
    else
      let e1 : Env := { e with board := e.board.set idx e.current_player }
      let w := check_winner e1
      if w ≠ 0 then
        ⟨{ e1 with done := true }, e1.board, w * e.current_player, true, false,
          .winner (some (if w = 1 then .X else .O))⟩
      else if get_valid_actions e1 = [] then
        ⟨{ e1 with done := true }, e1.board, 0, true, false, .winner (some .Draw)⟩
      else
        ⟨{ e1 with current_player := -e.current_player, done := false }, e1.board, 0, false,
          false, .winner none⟩

/-- `TicTacToeEnv(size=…, win_length=…)`: the constructor ends in `reset()`. -/
def mkEnv (size win_length : ℕ) : Env :=
  let e0 : Env := { size, win_length, board := List.replicate (size * size) 0,
                    current_player := 1, done := false }
  { e0 with done := is_doneE e0 }

/-- `TicTacToeEnv.clone` of `ttt5.py` (lines 295-301). -/
def clone (e : Env) : Env :=
  { mkEnv e.size e.win_length with
      board := e.board, current_player := e.current_player, done := e.done }

end T5

namespace AList
/-! ## Association lists standing in for Python dictionaries -/

/-- First value stored under key `a` (Python dictionaries have unique keys; the
models maintain key-uniqueness as an invariant). -/
def find (cs : List (ℕ × β)) (a : ℕ) : Option β :=
  (cs.find? (fun ac => ac.1 = a)).map (fun ac => ac.2)

/-- Replace the value stored under key `a` (Python mutates the object held in
the dictionary). -/
def upd (cs : List (ℕ × β)) (a : ℕ) (c : β) : List (ℕ × β) :=
  cs.map (fun ac => if ac.1 = a then (a, c) else ac)

/-- The keys, in insertion order. -/
def keysOf (cs : List (ℕ × β)) : List ℕ := cs.map (fun ac => ac.1)

end AList

namespace MC
/-! ## `mcts.py`: the tictactoe MCTS engine -/

/-- `calculate_ucb` of `mcts.py` (lines 7-17): `+inf` for an unvisited node,
otherwise mean value plus `exploration_weight * sqrt(log(parent_visits) /
node_visits)` — note: no factor 2 under the square root. -/
noncomputable def calculate_ucb (node_value node_visits parent_visits exploration_weight : ℝ) :
    EReal :=
  if node_visits = 0 then ⊤
  else ((node_value / node_visits
          + exploration_weight * Real.sqrt (Real.log parent_visits / node_visits) : ℝ) : EReal)

/-- A search-tree node of `mcts.py`'s `Node` (lines 20-28); the `parent`
back-reference is represented by the position of the node in its parent's
`children` list, and `self.env` snapshots the cloned environment. -/
inductive NodeT where
  | mk (env : T3.Env) (action : Option ℕ) (reward : ℤ) (visit : ℕ)
       (children : List (ℕ × NodeT)) (untried_action : List ℕ)

def NodeT.env : NodeT → T3.Env
  | .mk e _ _ _ _ _ => e

def NodeT.action : NodeT → Option ℕ
  | .mk _ a _ _ _ _ => a

def NodeT.reward : NodeT → ℤ
  | .mk _ _ r _ _ _ => r

def NodeT.visit : NodeT → ℕ
  | .mk _ _ _ v _ _ => v

def NodeT.children : NodeT → List (ℕ × NodeT)
  | .mk _ _ _ _ c _ => c

def NodeT.untried_action : NodeT → List ℕ
  | .mk _ _ _ _ _ u => u

/-- `Node.__init__`: clone the environment, zero statistics, untried actions
initialized from the environment's legal-action query. -/
def mkNode (env : T3.Env) (action : Option ℕ) : NodeT :=
  .mk (T3.clone env) action 0 0 [] (T3.get_valid_actions env)

/-- Keys of a children association list. -/
def keys (cs : List (ℕ × NodeT)) : List ℕ := AList.keysOf cs

/-- Child lookup (`self.children[action]`). -/
def lookupChild (cs : List (ℕ × NodeT)) (a : ℕ) : Option NodeT := AList.find cs a

/-- Replace the child stored under key `a` (Python mutates the node object held
in the dictionary). -/
def updateC (cs : List (ℕ × NodeT)) (a : ℕ) (c : NodeT) : List (ℕ × NodeT) :=
  AList.upd cs a c

open Classical in
/-- `Node.choose_best_child` (lines 39-54): `None` for a childless node, else
the first child attaining the maximal UCB score (strict improvement, so ties
keep the earlier child); `best_ucb` starts at `float('-inf')`. The child is
returned together with its dictionary key. -/
noncomputable def choose_best_child (n : NodeT) (explore_rate : ℝ) : Option (ℕ × NodeT) :=
  if n.children.isEmpty then none
  else
    (n.children.foldl (fun acc ac =>
      let ucb := calculate_ucb (ac.2.reward : ℝ) (ac.2.visit : ℝ) (n.visit : ℝ) explore_rate
      if acc.1 < ucb then (ucb, some ac) else acc) ((⊥ : EReal), none)).2

/-- `Node.expand_child` (lines 30-37): clone the env, step it with the action,
build the child node, register it under the action key and remove the action
from the untried list. Returns the updated parent and the new child. -/
def expand_child (n : NodeT) (action : ℕ) : NodeT × NodeT :=
  let new_env := T3.clone n.env
  let stepped := (T3.step new_env action).env
  let next_node := mkNode stepped (some action)
  (.mk n.env n.action n.reward n.visit (n.children ++ [(action, next_node)])
     (n.untried_action.erase action), next_node)

/-- The loop body of `Node.rollout` (lines 57-64): random legal moves on the
cloned environment until `done`; fuel bounds the number of steps (the real
loop terminates because each move fills a cell). -/
def rolloutLoop (g : ℕ → ℕ) : ℕ → ℕ → T3.Env → Except Err (T3.Env × ℕ)
  | fuel, k, e =>
    if e.done then .ok (e, k)
    else
      match fuel with
      | 0 => .error .fuelExhausted
      | fuel + 1 =>
        let possible_actions := T3.get_valid_actions e
        if possible_actions = [] then .error .emptyChoice
        else
          let action := possible_actions.getD (g k % possible_actions.length) 0
          rolloutLoop g fuel (k + 1) (T3.step e action).env

/-- `Node.rollout` on an environment snapshot (lines 57-72): simulate to
completion on a clone, then score the final winner from the perspective of
`self.env.current_player`. -/
def rolloutE (g : ℕ → ℕ) (k : ℕ) (env : T3.Env) : Except Err (ℤ × ℕ) :=
  match rolloutLoop g ((T3.get_valid_actions env).length + 1) k (T3.clone env) with
  | .error e => .error e
  | .ok (fin, k') =>
    let winner := T3.check_winner fin
    .ok ((if winner = env.current_player then 1
          else if winner = -env.current_player then -1 else 0), k')

/-- `Node.rollout` as a method (reads only `self.env`). -/
def rolloutN (g : ℕ → ℕ) (k : ℕ) (n : NodeT) : Except Err (ℤ × ℕ) := rolloutE g k n.env

/-- `Node.backpropagate` (lines 74-79) on the explicit chain of a node followed
by its ancestors up to the root: each node's visit count is incremented and the
result is added, with the sign flipped at every step up. -/
def backpropagate : List (ℕ × ℤ) → ℤ → List (ℕ × ℤ)
  | [], _ => []
  | node :: rest, result => (node.1 + 1, node.2 + result) :: backpropagate rest (-result)

/-- One simulation of the `mcts` driver loop (lines 124-139), written as a
recursion over the selection path: selection descends while the node is fully
expanded and non-terminal, then one child is expanded (if non-terminal), a
rollout is scored, and the result is backpropagated along the path with the
sign flipping at each ply. Returns the updated subtree, the reward added at
this node, the action path taken below this node, and the rng index. -/
noncomputable def simulateT (g : ℕ → ℕ) :
    ℕ → ℕ → NodeT → Except Err (NodeT × ℤ × List ℕ × ℕ)
  | 0, _, _ => .error .fuelExhausted
  | fuel + 1, k, n =>
    if n.untried_action = [] ∧ n.env.done = false then
      -- Selection: descend into the best child.
      match choose_best_child n (1.4 : ℝ) with
      | none => .error .attributeError
      | some (a, c) =>
        match simulateT g fuel k c with
        | .error e => .error e
        | .ok (c', r, p, k') =>
          .ok (.mk n.env n.action (n.reward + -r) (n.visit + 1)
                 (updateC n.children a c') n.untried_action, -r, a :: p, k')
    else if n.env.done = false then
      -- Expansion: pick a random untried action, expand, rollout, backpropagate.
      let a := n.untried_action.getD (g k % n.untried_action.length) 0
      let n1 := (expand_child n a).1
      let child := (expand_child n a).2
      match rolloutN g (k + 1) child with
      | .error e => .error e
      | .ok (r, k') =>
        let child1 : NodeT := .mk child.env child.action (child.reward + r) (child.visit + 1)
          child.children child.untried_action
        .ok (.mk n1.env n1.action (n1.reward + -r) (n1.visit + 1)
               (updateC n1.children a child1) n1.untried_action, -r, [a], k')
    else
      -- Terminal node: rollout returns the terminal outcome directly.
      match rolloutN g k n with
      | .error e => .error e
      | .ok (r, k') =>
        .ok (.mk n.env n.action (n.reward + r) (n.visit + 1) n.children n.untried_action,
             r, [], k')

/-- The `for _ in range(num_simulations)` loop of `mcts` (lines 124-139),
collecting the selection/backpropagation path of every simulation. -/
noncomputable def mctsLoop (g : ℕ → ℕ) :
    ℕ → NodeT → ℕ → Except Err (NodeT × List (List ℕ) × ℕ)
  | k, t, 0 => .ok (t, [], k)
  | k, t, count + 1 =>
    match simulateT g (sizeOf t) k t with
    | .error e => .error e
    | .ok (t', _, p, k') =>
      match mctsLoop g k' t' count with
      | .error e => .error e
      | .ok (t'', ps, k'') => .ok (t'', p :: ps, k'')

/-- `mcts` (lines 120-149): build a root from the live environment, run the
budgeted simulations, then return `root.choose_best_child(0).action` — which
raises AttributeError when `choose_best_child` returns `None`. -/
noncomputable def mcts (initial_env : T3.Env) (num_simulations : ℕ) (g : ℕ → ℕ) :
    Except Err (Option ℕ) :=
  match mctsLoop g 0 (mkNode initial_env none) num_simulations with
  | .error e => .error e
  | .ok (root, _, _) =>
    match choose_best_child root 0 with
    | none => .error .attributeError
    | some (_, c) => .ok c.action

end MC

namespace BJ
/-! ## `blackjack/main.py`: the single-player MCTS engine -/

/-- `calculate_ucb` of `main.py` (lines 6-14): `+inf` for an unvisited node,
otherwise mean value plus `exploration_weight * sqrt(2 * log(parent_visits) /
node_visits)`. -/
noncomputable def calculate_ucb (node_value node_visits parent_visits exploration_weight : ℝ) :
    EReal :=
  if node_visits = 0 then ⊤
  else ((node_value / node_visits
          + exploration_weight * Real.sqrt (2 * Real.log parent_visits / node_visits) : ℝ) :
        EReal)

/-- `MCTSNode` of `main.py` (lines 16-29): blackjack state triple
`(player sum, dealer showing, usable ace)`, incoming action, children map,
statistics, untried actions and the terminal flag stored at construction. -/
inductive BJNode where
  | mk (state : ℤ × ℤ × ℤ) (action : Option ℕ) (children : List (ℕ × BJNode))
       (visits : ℕ) (value : ℤ) (untried_actions : List ℕ) (is_terminated : Bool)

def BJNode.state : BJNode → ℤ × ℤ × ℤ
  | .mk s _ _ _ _ _ _ => s

def BJNode.action : BJNode → Option ℕ
  | .mk _ a _ _ _ _ _ => a

def BJNode.children : BJNode → List (ℕ × BJNode)
  | .mk _ _ c _ _ _ _ => c

def BJNode.visits : BJNode → ℕ
  | .mk _ _ _ v _ _ _ => v

def BJNode.value : BJNode → ℤ
  | .mk _ _ _ _ v _ _ => v

def BJNode.untried_actions : BJNode → List ℕ
  | .mk _ _ _ _ _ u _ => u

def BJNode.is_terminated : BJNode → Bool
  | .mk _ _ _ _ _ _ t => t

/-- `MCTSNode.__init__`: zero statistics, untried actions always `[0, 1]`,
`is_terminated = state[0] > 21 or action == 0` computed once. -/
def mkNode (state : ℤ × ℤ × ℤ) (action : Option ℕ) : BJNode :=
  .mk state action [] 0 0 [0, 1] (decide (21 < state.1) || decide (action = some 0))

/-- Replace the stored state (used by `rollout`'s temporary reassignment of
`self.state`; the stored `is_terminated` flag is not recomputed). -/
def withState (n : BJNode) (s : ℤ × ℤ × ℤ) : BJNode :=
  .mk s n.action n.children n.visits n.value n.untried_actions n.is_terminated

/-- Keys of a children association list. -/
def keysB (cs : List (ℕ × BJNode)) : List ℕ := AList.keysOf cs

/-- Child lookup. -/
def lookupChildB (cs : List (ℕ × BJNode)) (a : ℕ) : Option BJNode := AList.find cs a

/-- Replace the child stored under key `a`. -/
def updateB (cs : List (ℕ × BJNode)) (a : ℕ) (c : BJNode) : List (ℕ × BJNode) :=
  AList.upd cs a c

open Classical in
/-- `MCTSNode.choose_best_child` (lines 34-43): first child attaining the
maximal UCB score; `best_ucb` starts at `-100` and there is no emptiness
guard, so a childless node yields `None`. -/
noncomputable def choose_best_child (n : BJNode) (exploration_weight : ℝ) :
    Option (ℕ × BJNode) :=
  (n.children.foldl (fun acc ac =>
    let ucb := calculate_ucb (ac.2.value : ℝ) (ac.2.visits : ℝ) (n.visits : ℝ)
      exploration_weight
    if acc.1 < ucb then (ucb, some ac) else acc) (((-100 : ℝ) : EReal), none)).2

/-- `MCTSNode.simulate_step` (lines 45-67): a hit draws a card uniform on
`1..13` capped at 10, applies the soft-ace rules; a stick leaves the state
unchanged and consumes no randomness. -/
def simulate_step (g : ℕ → ℕ) (k : ℕ) (s : ℤ × ℤ × ℤ) (action : ℕ) :
    (ℤ × ℤ × ℤ) × ℕ :=
  if action = 1 then
    let card : ℤ := ((min 10 (1 + g k % 13) : ℕ) : ℤ)
    let ps := s.1
    let ace := s.2.2
    let (ps1, ace1) :=
      if card = 1 then
        (if ps + 11 ≤ 21 then (ps + 11, (1 : ℤ)) else (ps + 1, ace))
      else (ps + card, ace)
    let (ps2, ace2) := if 21 < ps1 ∧ ace1 ≠ 0 then (ps1 - 10, (0 : ℤ)) else (ps1, ace1)
    ((ps2, s.2.1, ace2), k + 1)
  else (s, k)

/-- `MCTSNode.expand` (lines 71-80): compute the successor state (consuming
randomness on a hit), remove the action from the untried list, create the
child and register it. Returns updated parent, child, and rng index. -/
def expand (g : ℕ → ℕ) (k : ℕ) (n : BJNode) (action : ℕ) : BJNode × BJNode × ℕ :=
  let (next_state, k') := simulate_step g k n.state action
  let next_node := mkNode next_state (some action)
  (.mk n.state n.action (n.children ++ [(action, next_node)]) n.visits n.value
     (n.untried_actions.erase action) n.is_terminated, next_node, k')

/-- The dealer auto-play loop of `get_reward` (lines 97-113): hit until 17,
with the soft-ace conversion; fuel bounds the iterations. -/
def dealerLoop (g : ℕ → ℕ) : ℕ → ℕ → ℤ → ℤ → Except Err (ℤ × ℕ)
  | fuel, k, dealer_sum, dealer_ace =>
    if dealer_sum < 17 then
      match fuel with
      | 0 => .error .fuelExhausted
      | fuel + 1 =>
        let card : ℤ := ((min 10 (1 + g k % 13) : ℕ) : ℤ)
        let (d1, a1) :=
          if card = 1 then
            (if dealer_sum + 11 ≤ 21 then (dealer_sum + 11, (1 : ℤ))
             else (dealer_sum + 1, dealer_ace))
          else (dealer_sum + card, dealer_ace)
        let (d2, a2) := if 21 < d1 ∧ a1 ≠ 0 then (d1 - 10, (0 : ℤ)) else (d1, a1)
        dealerLoop g fuel (k + 1) d2 a2
    else .ok (dealer_sum, k)

/-- `MCTSNode.get_reward` (lines 83-125): `-1` on a bust; on a stick (the
node's own `action`, not the rollout's local one) the dealer plays out and the
hands are compared; otherwise `0`. -/
def get_reward (g : ℕ → ℕ) (k : ℕ) (n : BJNode) : Except Err (ℤ × ℕ) :=
  let player_sum := n.state.1
  let dealer_showing := n.state.2.1
  if 21 < player_sum then .ok (-1, k)
  else if n.action = some 0 then
    match dealerLoop g ((17 - dealer_showing).toNat + 2) k dealer_showing
        (if dealer_showing = 1 then 1 else 0) with
    | .error e => .error e
    | .ok (dealer_sum, k') =>
      .ok ((if 21 < dealer_sum then 1
            else if player_sum < dealer_sum then -1
            else if dealer_sum < player_sum then 1 else 0), k')
  else .ok (0, k)

/-- The loop of `MCTSNode.rollout` (lines 139-152): draw random actions until a
bust or a stick, then temporarily reassign `self.state` to the rollout state,
call `get_reward`, and restore the original state. Returns the node after the
call (restored), the reward, and the rng index. -/
def rolloutLoopB (g : ℕ → ℕ) (n : BJNode) :
    ℕ → ℕ → (ℤ × ℤ × ℤ) → Option ℕ → Except Err (BJNode × ℤ × ℕ)
  | fuel, k, current_state, action =>
    if 21 < current_state.1 ∨ action = some 0 then
      let original_state := n.state
      let n1 := withState n current_state
      match get_reward g k n1 with
      | .error e => .error e
      | .ok (r, k') => .ok (withState n1 original_state, r, k')
    else
      match fuel with
      | 0 => .error .fuelExhausted
      | fuel + 1 =>
        let a := [0, 1].getD (g k % 2) 0
        rolloutLoopB g n fuel (simulate_step g (k + 1) current_state a).2
          (simulate_step g (k + 1) current_state a).1 (some a)

/-- `MCTSNode.rollout` (lines 139-152). -/
def rollout (g : ℕ → ℕ) (k : ℕ) (n : BJNode) : Except Err (BJNode × ℤ × ℕ) :=
  rolloutLoopB g n ((22 - n.state.1).toNat + 2) k n.state none

/-- One simulation of `mcts_search` (lines 165-181), as a recursion over the
selection path; `backpropagate` (lines 154-160) adds the same (unflipped)
reward at every node on the path. -/
noncomputable def simulateB (g : ℕ → ℕ) :
    ℕ → ℕ → BJNode → Except Err (BJNode × ℤ × List ℕ × ℕ)
  | 0, _, _ => .error .fuelExhausted
  | fuel + 1, k, n =>
    if n.is_terminated = false ∧ n.untried_actions = [] then
      -- Selection (exploration weight defaults to 1).
      match choose_best_child n 1 with
      | none => .error .attributeError
      | some (a, c) =>
        match simulateB g fuel k c with
        | .error e => .error e
        | .ok (c', r, p, k') =>
          .ok (.mk n.state n.action (updateB n.children a c') (n.visits + 1) (n.value + r)
                 n.untried_actions n.is_terminated, r, a :: p, k')
    else if n.is_terminated = false then
      -- Expansion, rollout from the new child, backpropagation.
      let a := n.untried_actions.getD (g k % n.untried_actions.length) 0
      let n1 := (expand g (k + 1) n a).1
      let child := (expand g (k + 1) n a).2.1
      let k1 := (expand g (k + 1) n a).2.2
      match rollout g k1 child with
      | .error e => .error e
      | .ok (c', r, k2) =>
        let child1 : BJNode := .mk c'.state c'.action c'.children (c'.visits + 1)
          (c'.value + r) c'.untried_actions c'.is_terminated
        .ok (.mk n1.state n1.action (updateB n1.children a child1) (n1.visits + 1)
               (n1.value + r) n1.untried_actions n1.is_terminated, r, [a], k2)
    else
      -- Terminal node: rollout is still called on it.
      match rollout g k n with
      | .error e => .error e
      | .ok (n', r, k') =>
        .ok (.mk n'.state n'.action n'.children (n'.visits + 1) (n'.value + r)
               n'.untried_actions n'.is_terminated, r, [], k')

/-- The `for _ in range(num_simulations)` loop of `mcts_search`. -/
noncomputable def mctsLoopB (g : ℕ → ℕ) :
    ℕ → BJNode → ℕ → Except Err (BJNode × List (List ℕ) × ℕ)
  | k, t, 0 => .ok (t, [], k)
  | k, t, count + 1 =>
    match simulateB g (sizeOf t) k t with
    | .error e => .error e
    | .ok (t', _, p, k') =>
      match mctsLoopB g k' t' count with
      | .error e => .error e
      | .ok (t'', ps, k'') => .ok (t'', p :: ps, k'')

/-- `mcts_search` (lines 163-184): run the budgeted simulations on the given
root, then return `root.choose_best_child(exploration_weight=0).action` —
which raises AttributeError when `choose_best_child` returns `None`. -/
noncomputable def mcts_search (root : BJNode) (num_simulations : ℕ) (g : ℕ → ℕ) :
    Except Err (Option ℕ) :=
  match mctsLoopB g 0 root num_simulations with
  | .error e => .error e
  | .ok (t, _, _) =>
    match choose_best_child t 0 with
    | none => .error .attributeError
    | some (_, c) => .ok c.action

end BJ

namespace MC
/-! ## Well-formedness invariant and visit-count bookkeeping for the
tictactoe search tree -/

/-- Per-node invariant (spec §3): untried actions and children keys are
duplicate-free and disjoint, both are drawn from the legal-action set of the
node's state snapshot, and each child records its own key as incoming action. -/
def InvNode (n : NodeT) : Prop :=
  n.untried_action.Nodup ∧ (keys n.children).Nodup ∧
  (∀ a ∈ n.untried_action, a ∉ keys n.children) ∧
  (∀ a ∈ n.untried_action, a ∈ T3.get_valid_actions n.env) ∧
  (∀ ac ∈ n.children, ac.1 ∈ T3.get_valid_actions n.env ∧ ac.2.action = some ac.1)

/-- The invariant, at every node of the tree. -/
inductive InvT : NodeT → Prop
  | mk (n : NodeT) : InvNode n → (∀ ac ∈ n.children, InvT ac.2) → InvT n

/-- Visit count of the node reached by following a path of actions from the
given node (0 if no such node exists). -/
def countAt : List ℕ → NodeT → ℕ
  | [], n => n.visit
  | a :: p, n =>
    match lookupChild n.children a with
    | none => 0
    | some c => countAt p c

/-- `pathLe q p`: the path `q` is an initial segment of the path `p` — the
simulation that took path `p` passed through the node at `q`. -/
def pathLe : List ℕ → List ℕ → Bool
  | [], _ => true
  | _ :: _, [] => false
  | a :: q, b :: p => a = b && pathLe q p

/-- Number of recorded simulation paths passing through the node at path `q`. -/
def cntThrough (ps : List (List ℕ)) (q : List ℕ) : ℕ :=
  (ps.filter (fun p => pathLe q p)).length

end MC

namespace BJ
/-! ## Well-formedness invariant for the blackjack search tree -/

/-- Per-node invariant: untried actions and children keys are duplicate-free
and disjoint, both lie in the fixed legal-action set `{0, 1}`, and each child
records its own key as incoming action. -/
def InvNodeB (n : BJNode) : Prop :=
  n.untried_actions.Nodup ∧ (keysB n.children).Nodup ∧
  (∀ a ∈ n.untried_actions, a ∉ keysB n.children) ∧
  (∀ a ∈ n.untried_actions, a = 0 ∨ a = 1) ∧
  (∀ ac ∈ n.children, (ac.1 = 0 ∨ ac.1 = 1) ∧ ac.2.action = some ac.1)

/-- The invariant, at every node of the tree. -/
inductive InvB : BJNode → Prop
  | mk (n : BJNode) : InvNodeB n → (∀ ac ∈ n.children, InvB ac.2) → InvB n

/-- Visit count of the node reached by following a path of actions from the
given node (0 if no such node exists). -/
def countAtB : List ℕ → BJNode → ℕ
  | [], n => n.visits
  | a :: p, n =>
    match lookupChildB n.children a with
    | none => 0
    | some c => countAtB p c

end BJ

/-! ## Concrete inputs used by witnesses and counterexamples -/

/-- A degenerate rng stream: always 0. -/
def g0 : ℕ → ℕ := fun _ => 0

/-- A finished 3x3 game: X has completed the top row. -/
def wonE : T3.Env := ⟨[1, 1, 1, -1, -1, 0, 0, 0, 0], 1, true⟩

/-- A live 3x3 position with a single empty cell (index 8); playing it fills
the board with no winner. -/
def e0 : T3.Env := ⟨[1, -1, 1, 1, -1, -1, -1, 1, 0], 1, false⟩

/-- The board of `e0` after X plays cell 8 (a draw). -/
def b1 : List ℤ := [1, -1, 1, 1, -1, -1, -1, 1, 1]

/-- The child created by the single simulation of `mcts` on `e0`. -/
def child1 : MC.NodeT := .mk ⟨b1, 1, true⟩ (some 8) 0 1 [] []

/-- The tree after one simulation of `mcts` on `e0`. -/
def t0 : MC.NodeT := .mk e0 none 0 1 [(8, child1)] []

/-- A live 3x3 position whose cell 0 is occupied. -/
def occE : T3.Env := ⟨[1, 0, 0, 0, 0, 0, 0, 0, 0], -1, false⟩

/-- A finished 3x3 game for the `ttt5.py` environment (size 3, win length 3). -/
def wonE5 : T5.Env := ⟨3, 3, [1, 1, 1, -1, -1, 0, 0, 0, 0], 1, true⟩

/-- A live `ttt5.py` position whose cell 0 is occupied. -/
def occE5 : T5.Env := ⟨3, 3, [1, 0, 0, 0, 0, 0, 0, 0, 0], -1, false⟩

/-- A terminal blackjack root state: the player has busted at 22. -/
def bustN : BJ.BJNode := BJ.mkNode (22, 5, 0) none

/-- The stick-child created by one simulation of `mcts_search` on the state
`(15, 10, 0)` with the all-zero rng stream. -/
def bj1 : BJ.BJNode := .mk (15, 10, 0) (some 0) [] 1 (-1) [0, 1] true

/-- The blackjack tree after that simulation. -/
def bjRoot1 : BJ.BJNode := .mk (15, 10, 0) none [(0, bj1)] 1 (-1) [1] false
/-! ## Small helper lemmas -/

@[simp] theorem nodeT_env_mk (e : T3.Env) (a : Option ℕ) (r : ℤ) (v : ℕ)
    (c : List (ℕ × MC.NodeT)) (u : List ℕ) : (MC.NodeT.mk e a r v c u).env = e := rfl

@[simp] theorem nodeT_action_mk (e : T3.Env) (a : Option ℕ) (r : ℤ) (v : ℕ)
    (c : List (ℕ × MC.NodeT)) (u : List ℕ) : (MC.NodeT.mk e a r v c u).action = a := rfl

@[simp] theorem nodeT_reward_mk (e : T3.Env) (a : Option ℕ) (r : ℤ) (v : ℕ)
    (c : List (ℕ × MC.NodeT)) (u : List ℕ) : (MC.NodeT.mk e a r v c u).reward = r := rfl

@[simp] theorem nodeT_visit_mk (e : T3.Env) (a : Option ℕ) (r : ℤ) (v : ℕ)
    (c : List (ℕ × MC.NodeT)) (u : List ℕ) : (MC.NodeT.mk e a r v c u).visit = v := rfl

@[simp] theorem nodeT_children_mk (e : T3.Env) (a : Option ℕ) (r : ℤ) (v : ℕ)
    (c : List (ℕ × MC.NodeT)) (u : List ℕ) : (MC.NodeT.mk e a r v c u).children = c := rfl

@[simp] theorem nodeT_untried_mk (e : T3.Env) (a : Option ℕ) (r : ℤ) (v : ℕ)
    (c : List (ℕ × MC.NodeT)) (u : List ℕ) : (MC.NodeT.mk e a r v c u).untried_action = u := rfl

@[simp] theorem bjnode_state_mk (s : ℤ × ℤ × ℤ) (a : Option ℕ) (c : List (ℕ × BJ.BJNode))
    (vi : ℕ) (va : ℤ) (u : List ℕ) (t : Bool) :
    (BJ.BJNode.mk s a c vi va u t).state = s := rfl

@[simp] theorem bjnode_action_mk (s : ℤ × ℤ × ℤ) (a : Option ℕ) (c : List (ℕ × BJ.BJNode))
    (vi : ℕ) (va : ℤ) (u : List ℕ) (t : Bool) :
    (BJ.BJNode.mk s a c vi va u t).action = a := rfl

@[simp] theorem bjnode_children_mk (s : ℤ × ℤ × ℤ) (a : Option ℕ) (c : List (ℕ × BJ.BJNode))
    (vi : ℕ) (va : ℤ) (u : List ℕ) (t : Bool) :
    (BJ.BJNode.mk s a c vi va u t).children = c := rfl

@[simp] theorem bjnode_visits_mk (s : ℤ × ℤ × ℤ) (a : Option ℕ) (c : List (ℕ × BJ.BJNode))
    (vi : ℕ) (va : ℤ) (u : List ℕ) (t : Bool) :
    (BJ.BJNode.mk s a c vi va u t).visits = vi := rfl

@[simp] theorem bjnode_value_mk (s : ℤ × ℤ × ℤ) (a : Option ℕ) (c : List (ℕ × BJ.BJNode))
    (vi : ℕ) (va : ℤ) (u : List ℕ) (t : Bool) :
    (BJ.BJNode.mk s a c vi va u t).value = va := rfl

@[simp] theorem bjnode_untried_mk (s : ℤ × ℤ × ℤ) (a : Option ℕ) (c : List (ℕ × BJ.BJNode))
    (vi : ℕ) (va : ℤ) (u : List ℕ) (t : Bool) :
    (BJ.BJNode.mk s a c vi va u t).untried_actions = u := rfl

@[simp] theorem bjnode_isterm_mk (s : ℤ × ℤ × ℤ) (a : Option ℕ) (c : List (ℕ × BJ.BJNode))
    (vi : ℕ) (va : ℤ) (u : List ℕ) (t : Bool) :
    (BJ.BJNode.mk s a c vi va u t).is_terminated = t := rfl

/-! ## C1 -/

/-- C1 (amended): the blackjack `calculate_ucb` matches the spec's UCB1
formula `mean + w * sqrt(2 * ln N / n)`, while the tictactoe `calculate_ucb`
omits the factor 2: `mean + w * sqrt(ln N / n)`; both give `+infinity` to an
unvisited child. -/
theorem c1_ucb_formulas :
    (∀ v n N w : ℝ, n ≠ 0 →
       BJ.calculate_ucb v n N w
         = ((v / n + w * Real.sqrt (2 * Real.log N / n) : ℝ) : EReal)
       ∧ MC.calculate_ucb v n N w
         = ((v / n + w * Real.sqrt (Real.log N / n) : ℝ) : EReal))
  ∧ (∀ v N w : ℝ, BJ.calculate_ucb v 0 N w = ⊤ ∧ MC.calculate_ucb v 0 N w = ⊤) := by
  constructor
  · intro v n N w hn
    rw [BJ.calculate_ucb, if_neg hn, MC.calculate_ucb, if_neg hn]
    exact ⟨rfl, rfl⟩
  · intro v N w
    rw [BJ.calculate_ucb, if_pos rfl, MC.calculate_ucb, if_pos rfl]
    exact ⟨rfl, rfl⟩

/-- C1 witness: the amended formulas at the concrete input `v = 0, n = 1,
N = 3, w = 1`. -/
theorem c1_witness :
    (1 : ℝ) ≠ 0
  ∧ (BJ.calculate_ucb 0 1 3 1 = ((0 / 1 + 1 * Real.sqrt (2 * Real.log 3 / 1) : ℝ) : EReal)
     ∧ MC.calculate_ucb 0 1 3 1 = ((0 / 1 + 1 * Real.sqrt (Real.log 3 / 1) : ℝ) : EReal)) :=
  ⟨one_ne_zero, c1_ucb_formulas.1 0 1 3 1 one_ne_zero⟩

/-- C1 counterexample: at `v = 0, n = 1, N = 3, w = 1` the tictactoe
`calculate_ucb` differs from the spec's formula with the factor 2 (because
`sqrt(ln 3) < sqrt(2 * ln 3)`). -/
theorem c1_counterexample :
    MC.calculate_ucb 0 1 3 1 ≠ ((0 / 1 + 1 * Real.sqrt (2 * Real.log 3 / 1) : ℝ) : EReal) := by
  rw [MC.calculate_ucb, if_neg one_ne_zero, ne_eq, EReal.coe_eq_coe_iff]
  have h3 : (0 : ℝ) < Real.log 3 := Real.log_pos (by norm_num)
  have hlt : Real.sqrt (Real.log 3) < Real.sqrt (2 * Real.log 3) :=
    Real.sqrt_lt_sqrt (le_of_lt h3) (by linarith)
  simp only [div_one, zero_div, zero_add, one_mul]
  exact ne_of_lt hlt

/-! ## C2 -/

/-- C2 (code bug evaluated): on a root with no children — a terminal root
(`wonE`, `bustN`) for any budget, or any root with `numSimulations = 0` —
both drivers reach `choose_best_child(...) = None` and then take `.action` on
`None`: the model returns the AttributeError marker instead of `None`. -/
theorem c2_search_crashes_on_childless_root :
    MC.mcts wonE 3 g0 = .error .attributeError
  ∧ MC.mcts T3.mkEnv 0 g0 = .error .attributeError
  ∧ BJ.mcts_search bustN 2 g0 = .error .attributeError
  ∧ BJ.mcts_search (BJ.mkNode (15, 10, 0) none) 0 g0 = .error .attributeError :=
  ⟨rfl, rfl, rfl, rfl⟩

/-! ## C3 -/

/-- C3 (amended): neither environment raises on a bad `step` call — on a
finished game it returns the normal tuple `(state, 0, True, False,
{"info": "Game already finished"})` and on an occupied cell the normal tuple
`(state, -1, False, False, {"info": "Invalid move"})`. -/
theorem c3_step_returns_sentinels :
    (∀ (e : T3.Env) (a : ℕ), e.done = true →
        T3.step e a = ⟨e, e.board, 0, true, false, .alreadyFinished⟩)
  ∧ (∀ (e : T3.Env) (a : ℕ), e.done = false →
        T3.bget e.board (a / 3 * 3 + a % 3) ≠ 0 →
        T3.step e a = ⟨e, e.board, -1, false, false, .invalidMove⟩)
  ∧ (∀ (e : T5.Env) (a : ℕ), e.done = true →
        T5.step e a = ⟨e, e.board, 0, true, false, .alreadyFinished⟩)
  ∧ (∀ (e : T5.Env) (a : ℕ), e.done = false →
        T5.bget e (a / e.size * e.size + a % e.size) ≠ 0 →
        T5.step e a = ⟨e, e.board, -1, false, false, .invalidMove⟩) := by
  refine ⟨fun e a h => ?_, fun e a h h2 => ?_, fun e a h => ?_, fun e a h h2 => ?_⟩
  · simp [T3.step, h]
  · simp [T3.step, h, h2]
  · simp [T5.step, h]
  · simp [T5.step, h, h2]

/-- C3 witness: the sentinel behaviour at concrete inputs — a finished game
(`wonE`, `wonE5`) and an occupied cell 0 (`occE`, `occE5`). -/
theorem c3_witness :
    (wonE.done = true ∧ T3.step wonE 4 = ⟨wonE, wonE.board, 0, true, false, .alreadyFinished⟩)
  ∧ (occE.done = false ∧ T3.bget occE.board (0 / 3 * 3 + 0 % 3) ≠ 0
      ∧ T3.step occE 0 = ⟨occE, occE.board, -1, false, false, .invalidMove⟩)
  ∧ (wonE5.done = true
      ∧ T5.step wonE5 4 = ⟨wonE5, wonE5.board, 0, true, false, .alreadyFinished⟩)
  ∧ (occE5.done = false ∧ T5.bget occE5 (0 / occE5.size * occE5.size + 0 % occE5.size) ≠ 0
      ∧ T5.step occE5 0 = ⟨occE5, occE5.board, -1, false, false, .invalidMove⟩) :=
  ⟨⟨rfl, c3_step_returns_sentinels.1 wonE 4 rfl⟩,
   ⟨rfl, by decide, c3_step_returns_sentinels.2.1 occE 0 rfl (by decide)⟩,
   ⟨rfl, c3_step_returns_sentinels.2.2.1 wonE5 4 rfl⟩,
   ⟨rfl, by decide, c3_step_returns_sentinels.2.2.2 occE5 0 rfl (by decide)⟩⟩

/-- C3 counterexample: at the concrete inputs where the specification demands
a TerminalStateError (finished game `wonE`, action 4) or an InvalidAction
error (occupied cell 0 of `occE`), the code's `step` returns an ordinary
result tuple instead. -/
theorem c3_counterexample :
    T3.stepSpec wonE 4 = .error .terminalStateError
  ∧ T3.step wonE 4 = ⟨wonE, wonE.board, 0, true, false, .alreadyFinished⟩
  ∧ T3.stepSpec occE 0 = .error .invalidAction
  ∧ T3.step occE 0 = ⟨occE, occE.board, -1, false, false, .invalidMove⟩ :=
  ⟨rfl, rfl, rfl, rfl⟩

/-! ## C4 -/

/-- Closed form of the chain backpropagation: the node at distance `i` from
the start of the chain receives `(-1)^i * result`. -/
theorem backpropagate_getD (chain : List (ℕ × ℤ)) :
    ∀ (result : ℤ) (i : ℕ), i < chain.length →
      (MC.backpropagate chain result).getD i (0, 0)
        = ((chain.getD i (0, 0)).1 + 1,
           (chain.getD i (0, 0)).2 + (-1) ^ i * result) := by
  induction chain with
  | nil => intro r i h; simp at h
  | cons nd rest ih =>
    intro r i h
    cases i with
    | zero => simp [MC.backpropagate]
    | succ i =>
      simp only [MC.backpropagate, List.getD_cons_succ]
      rw [ih (-r) i (by simpa using h)]
      ring_nf

/-- C4: along a backpropagation chain in the adversarial tictactoe engine, the
reward added to a parent's accumulated value is exactly the negation of the
reward added to its child (the chain lists the child before the parent). -/
theorem c4_backprop_sign_flip (chain : List (ℕ × ℤ)) (result : ℤ) (i : ℕ)
    (h : i + 1 < chain.length) :
    ((MC.backpropagate chain result).getD (i + 1) (0, 0)).2 - (chain.getD (i + 1) (0, 0)).2
      = -(((MC.backpropagate chain result).getD i (0, 0)).2 - (chain.getD i (0, 0)).2) := by
  rw [backpropagate_getD chain result (i + 1) h,
      backpropagate_getD chain result i (Nat.lt_of_succ_lt h)]
  ring_nf

/-- C4 witness: a two-node chain with result 1 — the child gains `+1`, the
parent gains `-1`. -/
theorem c4_witness :
    0 + 1 < ([(0, 0), (0, 0)] : List (ℕ × ℤ)).length
  ∧ ((MC.backpropagate [(0, 0), (0, 0)] 1).getD 1 (0, 0)).2
      - (([(0, 0), (0, 0)] : List (ℕ × ℤ)).getD 1 (0, 0)).2
    = -(((MC.backpropagate [(0, 0), (0, 0)] 1).getD 0 (0, 0)).2
      - (([(0, 0), (0, 0)] : List (ℕ × ℤ)).getD 0 (0, 0)).2) :=
  ⟨by decide, c4_backprop_sign_flip [(0, 0), (0, 0)] 1 0 (by decide)⟩

/-! ## C9 -/

/-- C9: cloning reproduces every observable field (the clone is equal to the
source state as a value), and stepping a clone computes exactly the same
transition as stepping the original; the original, being a value, is never
mutated. -/
theorem c9_clone_observational :
    (∀ s : T3.Env, T3.clone s = s) ∧ (∀ s : T5.Env, T5.clone s = s)
  ∧ (∀ (s : T3.Env) (a : ℕ), T3.step (T3.clone s) a = T3.step s a)
  ∧ (∀ (s : T5.Env) (a : ℕ), T5.step (T5.clone s) a = T5.step s a) :=
  ⟨fun _ => rfl, fun _ => rfl, fun _ _ => rfl, fun _ _ => rfl⟩

/-! ## C8 (and the frame helper shared with C6/C5 proofs) -/

/-- Frame property of the blackjack rollout loop: on success the node is
returned exactly as it was (the temporary reassignment of `self.state` is
undone by the restore). -/
theorem rolloutLoopB_frame (g : ℕ → ℕ) (n : BJ.BJNode) :
    ∀ (fuel k : ℕ) (cur : ℤ × ℤ × ℤ) (act : Option ℕ) (res : BJ.BJNode × ℤ × ℕ),
      BJ.rolloutLoopB g n fuel k cur act = .ok res → res.1 = n := by
  intro fuel
  induction fuel with
  | zero =>
    intro k cur act res h
    rw [BJ.rolloutLoopB] at h
    split at h
    · dsimp only at h
      split at h
      · cases h
      · cases h
        cases n
        rfl
    · cases h
  | succ fuel ih =>
    intro k cur act res h
    rw [BJ.rolloutLoopB] at h
    split at h
    · dsimp only at h
      split at h
      · cases h
      · cases h
        cases n
        rfl
    · exact ih _ _ _ _ h

/-- Frame property of `BJ.rollout` itself. -/
theorem rollout_frame (g : ℕ → ℕ) (k : ℕ) (n : BJ.BJNode) (res : BJ.BJNode × ℤ × ℕ)
    (h : BJ.rollout g k n = .ok res) : res.1 = n :=
  rolloutLoopB_frame g n _ k n.state none res h

theorem simulateT_terminal_frame :
    ∀ (g : ℕ → ℕ) (fuel k : ℕ) (n : MC.NodeT) (res : MC.NodeT × ℤ × List ℕ × ℕ),
      n.env.done = true → MC.simulateT g fuel k n = .ok res →
      res.1.untried_action = n.untried_action ∧ res.1.children = n.children := by
  intro g fuel k n res hdone h
  cases fuel with
  | zero => cases h
  | succ fuel =>
    rw [MC.simulateT, hdone] at h
    simp only [Bool.true_eq_false, and_false, if_false] at h
    split at h
    · cases h
    · cases h
      exact ⟨rfl, rfl⟩

theorem simulateB_terminal_frame :
    ∀ (g : ℕ → ℕ) (fuel k : ℕ) (n : BJ.BJNode) (res : BJ.BJNode × ℤ × List ℕ × ℕ),
      n.is_terminated = true → BJ.simulateB g fuel k n = .ok res →
      res.1.untried_actions = n.untried_actions ∧ res.1.children = n.children := by
  intro g fuel k n res ht h
  cases fuel with
  | zero => cases h
  | succ fuel =>
    rw [BJ.simulateB, ht] at h
    simp only [Bool.true_eq_false, false_and, if_false] at h
    cases heq : BJ.rollout g k n with
    | error e => rw [heq] at h; cases h
    | ok nrk =>
      rw [heq] at h
      have hfr : nrk.1 = n := rollout_frame g k n nrk heq
      obtain ⟨n', r, k'⟩ := nrk
      dsimp only at h
      cases h
      cases hfr
      exact ⟨rfl, rfl⟩

/-- C6 (amended): a node that is terminal at construction is never expanded —
a simulation reaching it changes neither its untried-action list nor its
children (it only updates visit/value statistics). Its untried list is,
however, not empty in general (see the counterexample). -/
theorem c6_terminal_never_expanded :
    (∀ (g : ℕ → ℕ) (fuel k : ℕ) (n : MC.NodeT) (res : MC.NodeT × ℤ × List ℕ × ℕ),
        n.env.done = true → MC.simulateT g fuel k n = .ok res →
        res.1.untried_action = n.untried_action ∧ res.1.children = n.children)
  ∧ (∀ (g : ℕ → ℕ) (fuel k : ℕ) (n : BJ.BJNode) (res : BJ.BJNode × ℤ × List ℕ × ℕ),
        n.is_terminated = true → BJ.simulateB g fuel k n = .ok res →
        res.1.untried_actions = n.untried_actions ∧ res.1.children = n.children) :=
  ⟨simulateT_terminal_frame, simulateB_terminal_frame⟩

/-- C6 counterexample: nodes built from terminal states have non-empty untried
action lists — the blackjack constructor always stores `[0, 1]`, and the
tictactoe constructor stores the board's remaining empty cells, which are
non-empty on a won-but-not-full board. -/
theorem c6_counterexample :
    bustN.is_terminated = true ∧ bustN.untried_actions = [0, 1]
  ∧ bustN.untried_actions ≠ []
  ∧ (MC.mkNode wonE none).env.done = true
  ∧ (MC.mkNode wonE none).untried_action = [5, 6, 7, 8]
  ∧ (MC.mkNode wonE none).untried_action ≠ [] :=
  ⟨rfl, rfl, by decide, rfl, rfl, by decide⟩

/-- C6 witness: the amended statement at a concrete terminal tictactoe node
(and the run that realizes it). -/
theorem c6_witness :
    (MC.mkNode wonE none).env.done = true
  ∧ MC.simulateT g0 3 0 (MC.mkNode wonE none)
      = .ok (.mk wonE none 1 1 [] [5, 6, 7, 8], 1, [], 0)
  ∧ (MC.NodeT.mk wonE none 1 1 [] [5, 6, 7, 8]).untried_action
      = (MC.mkNode wonE none).untried_action
  ∧ (MC.NodeT.mk wonE none 1 1 [] [5, 6, 7, 8]).children = (MC.mkNode wonE none).children :=
  ⟨rfl, rfl,
   (c6_terminal_never_expanded.1 g0 3 0 (MC.mkNode wonE none) _ rfl rfl).1,
   (c6_terminal_never_expanded.1 g0 3 0 (MC.mkNode wonE none) _ rfl rfl).2⟩

/-- C8: rollouts do not touch the tree. The blackjack rollout returns the node
exactly as it was (its temporary `self.state` reassignment is restored before
returning), and the tictactoe rollout reads only the node's environment
snapshot, so two nodes with the same snapshot — whatever their statistics,
children or untried actions — give identical rollout computations. -/
theorem c8_rollout_is_frame :
    (∀ (g : ℕ → ℕ) (n : BJ.BJNode) (fuel k : ℕ) (cur : ℤ × ℤ × ℤ) (act : Option ℕ)
        (res : BJ.BJNode × ℤ × ℕ),
        BJ.rolloutLoopB g n fuel k cur act = .ok res → res.1 = n)
  ∧ (∀ (g : ℕ → ℕ) (k : ℕ) (n m : MC.NodeT), n.env = m.env →
        MC.rolloutN g k n = MC.rolloutN g k m) := by
  refine ⟨fun g n fuel k cur act res h => rolloutLoopB_frame g n fuel k cur act res h,
          fun g k n m h => ?_⟩
  rw [MC.rolloutN, MC.rolloutN, h]

/-- C8 witness: a concrete blackjack rollout from the bust node returns the
node unchanged, and two tictactoe nodes sharing the snapshot `e0` (with
different statistics) roll out identically. -/
theorem c8_witness :
    BJ.rolloutLoopB g0 bustN 2 0 (22, 5, 0) none = .ok (bustN, -1, 0)
  ∧ ((bustN, (-1 : ℤ), (0 : ℕ)) : BJ.BJNode × ℤ × ℕ).1 = bustN
  ∧ (MC.NodeT.mk e0 none 5 7 [] []).env = (MC.mkNode e0 none).env
  ∧ MC.rolloutN g0 0 (MC.NodeT.mk e0 none 5 7 [] []) = MC.rolloutN g0 0 (MC.mkNode e0 none) :=
  ⟨rfl, c8_rollout_is_frame.1 g0 bustN 2 0 (22, 5, 0) none _ rfl, rfl,
   c8_rollout_is_frame.2 g0 0 _ _ rfl⟩

/-! ## Association-list lemmas -/

theorem alist_find_cons {β : Type} (x : ℕ × β) (cs : List (ℕ × β)) (a : ℕ) :
    AList.find (x :: cs) a = if x.1 = a then some x.2 else AList.find cs a := by
  by_cases h : x.1 = a <;> simp [AList.find, List.find?_cons, h]

theorem alist_keys_upd {β : Type} (cs : List (ℕ × β)) (a : ℕ) (c : β) :
    AList.keysOf (AList.upd cs a c) = AList.keysOf cs := by
  induction cs with
  | nil => rfl
  | cons x cs ih =>
    by_cases h : x.1 = a <;> simp [AList.upd, AList.keysOf, h] <;>
      simpa [AList.upd, AList.keysOf] using ih

theorem alist_keys_append {β : Type} (cs ds : List (ℕ × β)) :
    AList.keysOf (cs ++ ds) = AList.keysOf cs ++ AList.keysOf ds := by
  simp [AList.keysOf]

theorem alist_find_upd_ne {β : Type} (cs : List (ℕ × β)) (a b : ℕ) (c : β) (hne : b ≠ a) :
    AList.find (AList.upd cs a c) b = AList.find cs b := by
  induction cs with
  | nil => rfl
  | cons x cs ih =>
    by_cases h : x.1 = a
    · have : AList.upd (x :: cs) a c = (a, c) :: AList.upd cs a c := by simp [AList.upd, h]
      rw [this, alist_find_cons, alist_find_cons]
      simp only [h]
      rw [if_neg (fun hh => hne hh.symm), if_neg (fun hh => hne hh.symm), ih]
    · have : AList.upd (x :: cs) a c = x :: AList.upd cs a c := by simp [AList.upd, h]
      rw [this, alist_find_cons, alist_find_cons, ih]

theorem alist_find_upd_found {β : Type} (cs : List (ℕ × β)) (a : ℕ) (c c0 : β)
    (h : AList.find cs a = some c0) : AList.find (AList.upd cs a c) a = some c := by
  induction cs with
  | nil => cases h
  | cons x cs ih =>
    by_cases hx : x.1 = a
    · have : AList.upd (x :: cs) a c = (a, c) :: AList.upd cs a c := by simp [AList.upd, hx]
      rw [this, alist_find_cons, if_pos rfl]
    · have hupd : AList.upd (x :: cs) a c = x :: AList.upd cs a c := by simp [AList.upd, hx]
      rw [alist_find_cons, if_neg hx] at h
      rw [hupd, alist_find_cons, if_neg hx]
      exact ih h

theorem alist_find_none {β : Type} (cs : List (ℕ × β)) (a : ℕ)
    (h : a ∉ AList.keysOf cs) : AList.find cs a = none := by
  induction cs with
  | nil => rfl
  | cons x cs ih =>
    rw [alist_find_cons, if_neg, ih]
    · intro hm; exact h (by simp [AList.keysOf]; right; simpa [AList.keysOf] using hm)
    · intro hx; exact h (by simp [AList.keysOf, hx])

theorem alist_find_append_right {β : Type} (cs ds : List (ℕ × β)) (a : ℕ)
    (h : AList.find cs a = none) : AList.find (cs ++ ds) a = AList.find ds a := by
  induction cs with
  | nil => rfl
  | cons x cs ih =>
    rw [alist_find_cons] at h
    rw [List.cons_append, alist_find_cons]
    by_cases hx : x.1 = a
    · rw [if_pos hx] at h; cases h
    · rw [if_neg hx] at h; rw [if_neg hx]; exact ih h

theorem alist_find_append_left {β : Type} (cs ds : List (ℕ × β)) (a : ℕ) (c : β)
    (h : AList.find cs a = some c) : AList.find (cs ++ ds) a = some c := by
  induction cs with
  | nil => cases h
  | cons x cs ih =>
    rw [alist_find_cons] at h
    rw [List.cons_append, alist_find_cons]
    by_cases hx : x.1 = a
    · rw [if_pos hx] at h; rw [if_pos hx]; exact h
    · rw [if_neg hx] at h; rw [if_neg hx]; exact ih h

theorem alist_find_mem {β : Type} (cs : List (ℕ × β)) (a : ℕ) (c : β)
    (h : AList.find cs a = some c) : (a, c) ∈ cs := by
  induction cs with
  | nil => cases h
  | cons x cs ih =>
    rw [alist_find_cons] at h
    by_cases hx : x.1 = a
    · rw [if_pos hx] at h
      cases h
      obtain ⟨x1, x2⟩ := x
      cases hx
      exact List.mem_cons_self _ _
    · rw [if_neg hx] at h
      exact List.mem_cons_of_mem x (ih h)

theorem alist_find_of_mem_nodup {β : Type} (cs : List (ℕ × β)) (a : ℕ) (c : β)
    (hnd : (AList.keysOf cs).Nodup) (hm : (a, c) ∈ cs) : AList.find cs a = some c := by
  induction cs with
  | nil => cases hm
  | cons x cs ih =>
    rw [AList.keysOf, List.map_cons, List.nodup_cons] at hnd
    rw [alist_find_cons]
    rcases List.mem_cons.mp hm with h | h
    · rw [← h]
      simp
    · by_cases hx : x.1 = a
      · exfalso
        apply hnd.1
        rw [hx]
        exact List.mem_map.mpr ⟨(a, c), h, rfl⟩
      · rw [if_neg hx]
        exact ih hnd.2 h

theorem alist_upd_append_fresh {β : Type} (cs : List (ℕ × β)) (a : ℕ) (c0 c : β)
    (h : a ∉ AList.keysOf cs) :
    AList.upd (cs ++ [(a, c0)]) a c = cs ++ [(a, c)] := by
  induction cs with
  | nil => simp [AList.upd]
  | cons x cs ih =>
    have hx : x.1 ≠ a := fun hh => h (by simp [AList.keysOf, hh])
    have h' : a ∉ AList.keysOf cs := fun hh => h (by simp [AList.keysOf] at hh ⊢; right; exact hh)
    simp only [List.cons_append, AList.upd, List.map_cons, if_neg hx]
    have := ih h'
    rw [AList.upd] at this
    rw [this]

theorem getD_mod_mem (l : List ℕ) (hl : l ≠ []) (i d : ℕ) : l.getD (i % l.length) d ∈ l := by
  have hlen : 0 < l.length := List.length_pos.mpr hl
  have hlt : i % l.length < l.length := Nat.mod_lt _ hlen
  rw [List.getD_eq_getElem l d hlt]
  exact l.getElem_mem hlt

/-! ## Membership of the selected child -/

open Classical in
theorem foldBest_mem {β : Type} (f : ℕ × β → EReal) (l : List (ℕ × β)) :
    ∀ (acc : EReal × Option (ℕ × β)) (x : ℕ × β),
      ((l.foldl (fun acc ac => if acc.1 < f ac then (f ac, some ac) else acc) acc).2 = some x) →
      acc.2 = some x ∨ x ∈ l := by
  induction l with
  | nil => intro acc x h; exact Or.inl h
  | cons c cs ih =>
    intro acc x h
    rw [List.foldl_cons] at h
    rcases ih _ x h with h' | h'
    · by_cases hc : acc.1 < f c
      · rw [if_pos hc] at h'
        cases h'
        exact Or.inr (List.mem_cons_self _ _)
      · rw [if_neg hc] at h'
        exact Or.inl h'
    · exact Or.inr (List.mem_cons_of_mem _ h')

theorem mc_choose_best_mem (n : MC.NodeT) (w : ℝ) (x : ℕ × MC.NodeT)
    (h : MC.choose_best_child n w = some x) : x ∈ n.children := by
  rw [MC.choose_best_child] at h
  split at h
  · cases h
  · rcases foldBest_mem
        (fun ac => MC.calculate_ucb (ac.2.reward : ℝ) (ac.2.visit : ℝ) (n.visit : ℝ) w)
        n.children ((⊥ : EReal), none) x h with h' | h'
    · cases h'
    · exact h'

theorem bj_choose_best_mem (n : BJ.BJNode) (w : ℝ) (x : ℕ × BJ.BJNode)
    (h : BJ.choose_best_child n w = some x) : x ∈ n.children := by
  rw [BJ.choose_best_child] at h
  rcases foldBest_mem
      (fun ac => BJ.calculate_ucb (ac.2.value : ℝ) (ac.2.visits : ℝ) (n.visits : ℝ) w)
      n.children (((-100 : ℝ) : EReal), none) x h with h' | h'
  · cases h'
  · exact h'

/-! ## Shape lemmas for expansion -/

theorem mc_expand_child_fst (n : MC.NodeT) (a : ℕ) :
    (MC.expand_child n a).1
      = .mk n.env n.action n.reward n.visit
          (n.children ++ [(a, (MC.expand_child n a).2)]) (n.untried_action.erase a) := rfl

theorem mc_expand_child_snd (n : MC.NodeT) (a : ℕ) :
    (MC.expand_child n a).2
      = .mk (T3.step n.env a).env (some a) 0 0 []
          (T3.get_valid_actions (T3.step n.env a).env) := rfl

theorem bj_expand_fst (g : ℕ → ℕ) (k : ℕ) (n : BJ.BJNode) (a : ℕ) :
    (BJ.expand g k n a).1
      = .mk n.state n.action (n.children ++ [(a, (BJ.expand g k n a).2.1)]) n.visits n.value
          (n.untried_actions.erase a) n.is_terminated := rfl

theorem bj_expand_snd (g : ℕ → ℕ) (k : ℕ) (n : BJ.BJNode) (a : ℕ) :
    (BJ.expand g k n a).2.1
      = BJ.mkNode (BJ.simulate_step g k n.state a).1 (some a) := rfl

/-! ## Case analysis of one tictactoe simulation -/

theorem simulateT_ok_cases (g : ℕ → ℕ) (fuel k : ℕ) (n : MC.NodeT)
    (res : MC.NodeT × ℤ × List ℕ × ℕ) (h : MC.simulateT g (fuel + 1) k n = .ok res) :
    (∃ a c c' r p k', n.untried_action = [] ∧ n.env.done = false
       ∧ MC.choose_best_child n (1.4 : ℝ) = some (a, c)
       ∧ MC.simulateT g fuel k c = .ok (c', r, p, k')
       ∧ res = (.mk n.env n.action (n.reward + -r) (n.visit + 1)
                  (MC.updateC n.children a c') n.untried_action, -r, a :: p, k'))
  ∨ (∃ r k', n.untried_action ≠ [] ∧ n.env.done = false
       ∧ MC.rolloutN g (k + 1)
           (MC.expand_child n (n.untried_action.getD (g k % n.untried_action.length) 0)).2
           = .ok (r, k')
       ∧ res = (.mk n.env n.action (n.reward + -r) (n.visit + 1)
                  (MC.updateC
                    (n.children ++
                      [(n.untried_action.getD (g k % n.untried_action.length) 0,
                        (MC.expand_child n
                          (n.untried_action.getD (g k % n.untried_action.length) 0)).2)])
                    (n.untried_action.getD (g k % n.untried_action.length) 0)
                    (.mk (T3.step n.env
                            (n.untried_action.getD (g k % n.untried_action.length) 0)).env
                       (some (n.untried_action.getD (g k % n.untried_action.length) 0))
                       (0 + r) (0 + 1) []
                       (T3.get_valid_actions
                         (T3.step n.env
                           (n.untried_action.getD (g k % n.untried_action.length) 0)).env)))
                  (n.untried_action.erase
                    (n.untried_action.getD (g k % n.untried_action.length) 0)),
                -r, [n.untried_action.getD (g k % n.untried_action.length) 0], k'))
  ∨ (∃ r k', n.env.done = true
       ∧ MC.rolloutN g k n = .ok (r, k')
       ∧ res = (.mk n.env n.action (n.reward + r) (n.visit + 1) n.children n.untried_action,
                r, [], k')) := by
  rw [MC.simulateT] at h
  split at h
  · rename_i hsel
    left
    cases hcb : MC.choose_best_child n (1.4 : ℝ) with
    | none => rw [hcb] at h; cases h
    | some ac =>
      obtain ⟨a, c⟩ := ac
      rw [hcb] at h
      dsimp only at h
      cases hrec : MC.simulateT g fuel k c with
      | error e => rw [hrec] at h; cases h
      | ok out =>
        obtain ⟨c', r, p, k'⟩ := out
        rw [hrec] at h
        dsimp only at h
        cases h
        exact ⟨a, c, c', r, p, k', hsel.1, hsel.2, rfl, hrec, rfl⟩
  · rename_i hsel
    split at h
    · rename_i hdone
      right; left
      have hne : n.untried_action ≠ [] := fun hA => hsel ⟨hA, hdone⟩
      dsimp only at h
      cases hro : MC.rolloutN g (k + 1)
          (MC.expand_child n (n.untried_action.getD (g k % n.untried_action.length) 0)).2 with
      | error e => rw [hro] at h; cases h
      | ok out =>
        obtain ⟨r, k'⟩ := out
        rw [hro] at h
        dsimp only at h
        cases h
        exact ⟨r, k', hne, hdone, rfl, rfl⟩
    · rename_i hdone
      right; right
      have hd : n.env.done = true := by
        cases hh : n.env.done
        · exact absurd hh hdone
        · rfl
      cases hro : MC.rolloutN g k n with
      | error e => rw [hro] at h; cases h
      | ok out =>
        obtain ⟨r, k'⟩ := out
        rw [hro] at h
        dsimp only at h
        cases h
        exact ⟨r, k', hd, rfl, rfl⟩

/-! ## The tictactoe tree invariant is established and preserved -/

theorem invT_node (n : MC.NodeT) (h : MC.InvT n) : MC.InvNode n := by
  cases h; assumption

theorem invT_children (n : MC.NodeT) (h : MC.InvT n) :
    ∀ ac ∈ n.children, MC.InvT ac.2 := by
  cases h; assumption

theorem valid_nodup (e : T3.Env) : (T3.get_valid_actions e).Nodup :=
  List.Nodup.filter _ (List.nodup_range 9)

theorem invT_mkNode (env : T3.Env) (action : Option ℕ) : MC.InvT (MC.mkNode env action) := by
  refine MC.InvT.mk _ ⟨valid_nodup env, List.nodup_nil, ?_, ?_, ?_⟩ ?_
  · intro a _ hk
    simp [MC.mkNode, MC.keys, AList.keysOf] at hk
  · intro a ha
    exact ha
  · intro ac hac
    simp [MC.mkNode] at hac
  · intro ac hac
    simp [MC.mkNode] at hac

theorem simulateT_inv : ∀ (fuel : ℕ) (g : ℕ → ℕ) (k : ℕ) (n : MC.NodeT)
    (res : MC.NodeT × ℤ × List ℕ × ℕ), MC.InvT n → MC.simulateT g fuel k n = .ok res →
    MC.InvT res.1 ∧ res.1.env = n.env ∧ res.1.action = n.action := by
  intro fuel
  induction fuel with
  | zero => intro g k n res _ h; cases h
  | succ fuel ih =>
    intro g k n res hInv h
    obtain ⟨hIN, hch⟩ : MC.InvNode n ∧ ∀ ac ∈ n.children, MC.InvT ac.2 :=
      ⟨invT_node n hInv, invT_children n hInv⟩
    obtain ⟨hu_nd, hk_nd, hdisj, husub, hcsub⟩ := hIN
    rcases simulateT_ok_cases g fuel k n res h with
      ⟨a, c, c', r, p, k', hu, hd, hcb, hrec, hres⟩ | ⟨r, k', hne, hd, hro, hres⟩ |
      ⟨r, k', hd, hro, hres⟩
    · -- Selection: the updated child keeps the invariant by induction.
      subst hres
      have hmem : (a, c) ∈ n.children := mc_choose_best_mem n _ _ hcb
      have hcInv : MC.InvT c := invT_children n hInv (a, c) hmem
      obtain ⟨hc'Inv, hc'env, hc'act⟩ := ih g k c (c', r, p, k') hcInv hrec
      have hact_c : c.action = some a := (hcsub (a, c) hmem).2
      have hkey_a : a ∈ T3.get_valid_actions n.env := (hcsub (a, c) hmem).1
      refine ⟨MC.InvT.mk _ ⟨hu_nd, ?_, ?_, husub, ?_⟩ ?_, rfl, rfl⟩
      · show (MC.keys (MC.updateC n.children a c')).Nodup
        simp only [MC.keys, MC.updateC]
        rw [alist_keys_upd]
        exact hk_nd
      · intro b hb
        show b ∉ MC.keys (MC.updateC n.children a c')
        simp only [MC.keys, MC.updateC]
        rw [alist_keys_upd]
        exact hdisj b hb
      · intro ac hac
        simp only [nodeT_children_mk, MC.updateC, AList.upd, List.mem_map] at hac
        obtain ⟨old, hold, heq⟩ := hac
        by_cases hx : old.1 = a
        · rw [if_pos hx] at heq
          subst heq
          refine ⟨hkey_a, ?_⟩
          show c'.action = some a
          rw [hc'act, hact_c]
        · rw [if_neg hx] at heq
          subst heq
          exact hcsub old hold
      · intro ac hac
        simp only [nodeT_children_mk, MC.updateC, AList.upd, List.mem_map] at hac
        obtain ⟨old, hold, heq⟩ := hac
        by_cases hx : old.1 = a
        · rw [if_pos hx] at heq
          subst heq
          exact hc'Inv
        · rw [if_neg hx] at heq
          subst heq
          exact hch old hold
    · -- Expansion: the fresh child satisfies the invariant outright.
      subst hres
      set a := n.untried_action.getD (g k % n.untried_action.length) 0 with ha_def
      have ha_mem : a ∈ n.untried_action := getD_mod_mem _ hne _ _
      have ha_valid : a ∈ T3.get_valid_actions n.env := husub a ha_mem
      have ha_notk : a ∉ MC.keys n.children := hdisj a ha_mem
      have hupd : MC.updateC (n.children ++ [(a, (MC.expand_child n a).2)]) a
            (.mk (T3.step n.env a).env (some a) (0 + r) (0 + 1) []
               (T3.get_valid_actions (T3.step n.env a).env))
          = n.children ++ [(a, .mk (T3.step n.env a).env (some a) (0 + r) (0 + 1) []
               (T3.get_valid_actions (T3.step n.env a).env))] := by
        simp only [MC.updateC]
        exact alist_upd_append_fresh n.children a _ _ ha_notk
      rw [hupd]
      have hchildInv : MC.InvT (.mk (T3.step n.env a).env (some a) (0 + r) (0 + 1) []
          (T3.get_valid_actions (T3.step n.env a).env)) := by
        refine MC.InvT.mk _ ⟨valid_nodup _, List.nodup_nil, ?_, ?_, ?_⟩ ?_
        · intro b _ hk
          simp [MC.keys, AList.keysOf] at hk
        · intro b hb
          exact hb
        · intro ac hac
          simp at hac
        · intro ac hac
          simp at hac
      refine ⟨MC.InvT.mk _ ⟨hu_nd.erase a, ?_, ?_, ?_, ?_⟩ ?_, rfl, rfl⟩
      · show (MC.keys (n.children ++ [(a, _)])).Nodup
        simp only [MC.keys, AList.keysOf, List.map_append, List.map_cons, List.map_nil]
        rw [List.nodup_append]
        refine ⟨hk_nd, List.nodup_singleton a, ?_⟩
        intro b hb hb'
        simp at hb'
        subst hb'
        exact ha_notk hb
      · intro b hb
        have hb' := (List.Nodup.mem_erase_iff hu_nd).mp hb
        show b ∉ MC.keys (n.children ++ [(a, _)])
        simp only [MC.keys, AList.keysOf, List.map_append, List.map_cons, List.map_nil]
        rw [List.mem_append]
        rintro (hcase | hcase)
        · exact hdisj b hb'.2 hcase
        · simp at hcase
          exact hb'.1 hcase
      · intro b hb
        exact husub b (List.mem_of_mem_erase hb)
      · intro ac hac
        rcases List.mem_append.mp hac with hold | hnew
        · exact hcsub ac hold
        · simp at hnew
          subst hnew
          exact ⟨ha_valid, rfl⟩
      · intro ac hac
        rcases List.mem_append.mp hac with hold | hnew
        · exact hch ac hold
        · simp at hnew
          subst hnew
          have := hchildInv
          simp only [zero_add] at this
          exact this
    · -- Terminal: statistics change only.
      subst hres
      exact ⟨MC.InvT.mk _ ⟨hu_nd, hk_nd, hdisj, husub, hcsub⟩ hch, rfl, rfl⟩

/-! ## Visit counts: one simulation adds one visit exactly along its path -/

theorem countAt_nil (n : MC.NodeT) : MC.countAt [] n = n.visit := rfl

theorem countAt_cons_none (b : ℕ) (q : List ℕ) (n : MC.NodeT)
    (h : MC.lookupChild n.children b = none) : MC.countAt (b :: q) n = 0 := by
  rw [MC.countAt, h]

theorem countAt_cons_some (b : ℕ) (q : List ℕ) (n : MC.NodeT) (c : MC.NodeT)
    (h : MC.lookupChild n.children b = some c) : MC.countAt (b :: q) n = MC.countAt q c := by
  rw [MC.countAt, h]

theorem pathLe_nil (p : List ℕ) : MC.pathLe [] p = true := rfl

theorem pathLe_cons_nil (a : ℕ) (q : List ℕ) : MC.pathLe (a :: q) [] = false := rfl

theorem pathLe_cons_cons (a : ℕ) (q : List ℕ) (b : ℕ) (p : List ℕ) :
    MC.pathLe (a :: q) (b :: p) = (decide (a = b) && MC.pathLe q p) := rfl

theorem countAt_congr (m n : MC.NodeT) (b : ℕ) (q : List ℕ)
    (hh : MC.lookupChild m.children b = MC.lookupChild n.children b) :
    MC.countAt (b :: q) m = MC.countAt (b :: q) n := by
  cases hlk : MC.lookupChild n.children b with
  | none => rw [countAt_cons_none b q m (hh.trans hlk), countAt_cons_none b q n hlk]
  | some cb =>
    rw [countAt_cons_some b q m cb (hh.trans hlk), countAt_cons_some b q n cb hlk]

theorem simulateT_count : ∀ (fuel : ℕ) (g : ℕ → ℕ) (k : ℕ) (n : MC.NodeT)
    (res : MC.NodeT × ℤ × List ℕ × ℕ), MC.InvT n → MC.simulateT g fuel k n = .ok res →
    ∀ q, MC.countAt q res.1
      = MC.countAt q n + (if MC.pathLe q res.2.2.1 = true then 1 else 0) := by
  intro fuel
  induction fuel with
  | zero => intro g k n res _ h; cases h
  | succ fuel ih =>
    intro g k n res hInv h q
    obtain ⟨hu_nd, hk_nd, hdisj, husub, hcsub⟩ := invT_node n hInv
    rcases simulateT_ok_cases g fuel k n res h with
      ⟨a, c, c', r, p, k', hu, hd, hcb, hrec, hres⟩ | ⟨r, k', hne, hd, hro, hres⟩ |
      ⟨r, k', hd, hro, hres⟩
    · -- Selection
      subst hres
      have hmem : (a, c) ∈ n.children := mc_choose_best_mem n _ _ hcb
      have hfind : MC.lookupChild n.children a = some c :=
        alist_find_of_mem_nodup n.children a c hk_nd hmem
      have hcInv : MC.InvT c := invT_children n hInv (a, c) hmem
      cases q with
      | nil => simp [countAt_nil, pathLe_nil]
      | cons b q'' =>
        by_cases hba : b = a
        · subst hba
          have hupd : MC.lookupChild
              (MC.NodeT.mk n.env n.action (n.reward + -r) (n.visit + 1)
                (MC.updateC n.children b c') n.untried_action).children b = some c' := by
            show MC.lookupChild (MC.updateC n.children b c') b = some c'
            simp only [MC.lookupChild, MC.updateC]
            exact alist_find_upd_found n.children b c' c hfind
          rw [countAt_cons_some b q'' _ c' hupd, countAt_cons_some b q'' n c hfind,
              ih g k c (c', r, p, k') hcInv hrec q'']
          rw [pathLe_cons_cons]
          simp
        · have hupd : MC.lookupChild
              (MC.NodeT.mk n.env n.action (n.reward + -r) (n.visit + 1)
                (MC.updateC n.children a c') n.untried_action).children b
              = MC.lookupChild n.children b := by
            show MC.lookupChild (MC.updateC n.children a c') b = MC.lookupChild n.children b
            simp only [MC.lookupChild, MC.updateC]
            exact alist_find_upd_ne n.children a b c' hba
          rw [countAt_congr _ n b q'' hupd, pathLe_cons_cons]
          simp [hba]
    · -- Expansion
      subst hres
      set a := n.untried_action.getD (g k % n.untried_action.length) 0 with ha_def
      have ha_mem : a ∈ n.untried_action := getD_mod_mem _ hne _ _
      have ha_notk : a ∉ MC.keys n.children := hdisj a ha_mem
      have hnone : MC.lookupChild n.children a = none := by
        simp only [MC.lookupChild]
        exact alist_find_none n.children a ha_notk
      have hupd : MC.updateC (n.children ++ [(a, (MC.expand_child n a).2)]) a
            (.mk (T3.step n.env a).env (some a) (0 + r) (0 + 1) []
               (T3.get_valid_actions (T3.step n.env a).env))
          = n.children ++ [(a, .mk (T3.step n.env a).env (some a) (0 + r) (0 + 1) []
               (T3.get_valid_actions (T3.step n.env a).env))] := by
        simp only [MC.updateC]
        exact alist_upd_append_fresh n.children a _ _ ha_notk
      rw [hupd]
      cases q with
      | nil => simp [countAt_nil, pathLe_nil]
      | cons b q'' =>
        by_cases hba : b = a
        · rw [hba]
          have hfind : MC.lookupChild
              (MC.NodeT.mk n.env n.action (n.reward + -r) (n.visit + 1)
                (n.children ++ [(a, MC.NodeT.mk (T3.step n.env a).env (some a) (0 + r) (0 + 1)
                  [] (T3.get_valid_actions (T3.step n.env a).env))])
                (n.untried_action.erase a)).children a
              = some (.mk (T3.step n.env a).env (some a) (0 + r) (0 + 1) []
                 (T3.get_valid_actions (T3.step n.env a).env)) := by
            show MC.lookupChild (n.children ++ _) a = _
            simp only [MC.lookupChild]
            rw [alist_find_append_right _ _ _ hnone, alist_find_cons]
            simp
          rw [countAt_cons_some a q'' _ _ hfind, countAt_cons_none a q'' n hnone]
          cases q'' with
          | nil =>
            rw [countAt_nil]
            simp [pathLe_cons_cons, pathLe_nil]
          | cons x q''' =>
            rw [countAt_cons_none x q''' _ (by simp [MC.lookupChild, AList.find])]
            simp [pathLe_cons_cons, pathLe_cons_nil]
        · have hfind : MC.lookupChild
              (MC.NodeT.mk n.env n.action (n.reward + -r) (n.visit + 1)
                (n.children ++ [(a, MC.NodeT.mk (T3.step n.env a).env (some a) (0 + r) (0 + 1)
                  [] (T3.get_valid_actions (T3.step n.env a).env))])
                (n.untried_action.erase a)).children b
              = MC.lookupChild n.children b := by
            show MC.lookupChild (n.children ++ _) b = MC.lookupChild n.children b
            simp only [MC.lookupChild]
            cases hlk : AList.find n.children b with
            | none =>
              rw [alist_find_append_right _ _ _ hlk, alist_find_cons]
              rw [if_neg (fun hh : a = b => hba hh.symm)]
              rfl
            | some cb => exact alist_find_append_left _ _ _ _ hlk
          rw [countAt_congr _ n b q'' hfind, pathLe_cons_cons]
          simp [hba]
    · -- Terminal
      subst hres
      cases q with
      | nil => simp [countAt_nil, pathLe_nil]
      | cons b q'' =>
        rw [countAt_congr
              (MC.NodeT.mk n.env n.action (n.reward + r) (n.visit + 1) n.children
                n.untried_action) n b q'' rfl,
            pathLe_cons_nil]
        simp

/-! ## Accumulation over the whole simulation loop -/

theorem cntThrough_nil (q : List ℕ) : MC.cntThrough [] q = 0 := rfl

theorem cntThrough_cons (p : List ℕ) (ps : List (List ℕ)) (q : List ℕ) :
    MC.cntThrough (p :: ps) q
      = (if MC.pathLe q p = true then 1 else 0) + MC.cntThrough ps q := by
  rw [MC.cntThrough, MC.cntThrough, List.filter_cons]
  by_cases hc : MC.pathLe q p = true
  · rw [if_pos hc, if_pos hc, List.length_cons]
    omega
  · rw [if_neg hc, if_neg hc]
    omega

theorem cntThrough_root (ps : List (List ℕ)) : MC.cntThrough ps [] = ps.length := by
  rw [MC.cntThrough]
  have : ps.filter (fun p => MC.pathLe [] p) = ps :=
    List.filter_eq_self.mpr (fun p _ => by rw [pathLe_nil])
  rw [this]

theorem countAt_mkNode (env : T3.Env) (action : Option ℕ) (q : List ℕ) :
    MC.countAt q (MC.mkNode env action) = 0 := by
  cases q with
  | nil => rfl
  | cons b q' => exact countAt_cons_none b q' _ rfl

theorem mctsLoop_spec : ∀ (count : ℕ) (g : ℕ → ℕ) (k : ℕ) (t : MC.NodeT)
    (res : MC.NodeT × List (List ℕ) × ℕ), MC.InvT t → MC.mctsLoop g k t count = .ok res →
    MC.InvT res.1 ∧ res.1.env = t.env ∧ res.2.1.length = count
      ∧ ∀ q, MC.countAt q res.1 = MC.countAt q t + MC.cntThrough res.2.1 q := by
  intro count
  induction count with
  | zero =>
    intro g k t res hInv h
    rw [MC.mctsLoop] at h
    cases h
    refine ⟨hInv, rfl, rfl, fun q => ?_⟩
    show MC.countAt q t = MC.countAt q t + MC.cntThrough [] q
    rw [cntThrough_nil, Nat.add_zero]
  | succ count ihc =>
    intro g k t res hInv h
    rw [MC.mctsLoop] at h
    cases hsim : MC.simulateT g (sizeOf t) k t with
    | error e => rw [hsim] at h; cases h
    | ok out =>
      rw [hsim] at h
      obtain ⟨t', r, p, k'⟩ := out
      dsimp only at h
      cases hloop : MC.mctsLoop g k' t' count with
      | error e => rw [hloop] at h; cases h
      | ok out2 =>
        rw [hloop] at h
        obtain ⟨t'', ps, k''⟩ := out2
        dsimp only at h
        cases h
        obtain ⟨hI1, hE1, hA1⟩ := simulateT_inv (sizeOf t) g k t (t', r, p, k') hInv hsim
        obtain ⟨hI2, hE2, hL2, hC2⟩ := ihc g k' t' (t'', ps, k'') hI1 hloop
        refine ⟨hI2, hE2.trans hE1, by simp [hL2], fun q => ?_⟩
        have hc1 := simulateT_count (sizeOf t) g k t (t', r, p, k') hInv hsim q
        have hc2 := hC2 q
        dsimp only at hc1 hc2 ⊢
        rw [hc2, hc1, cntThrough_cons]
        omega

/-! ## Case analysis of one blackjack simulation -/

theorem simulateB_ok_cases (g : ℕ → ℕ) (fuel k : ℕ) (n : BJ.BJNode)
    (res : BJ.BJNode × ℤ × List ℕ × ℕ) (h : BJ.simulateB g (fuel + 1) k n = .ok res) :
    (∃ a c c' r p k', n.is_terminated = false ∧ n.untried_actions = []
       ∧ BJ.choose_best_child n 1 = some (a, c)
       ∧ BJ.simulateB g fuel k c = .ok (c', r, p, k')
       ∧ res = (.mk n.state n.action (BJ.updateB n.children a c') (n.visits + 1)
                  (n.value + r) n.untried_actions n.is_terminated, r, a :: p, k'))
  ∨ (∃ a c' r k', n.is_terminated = false ∧ n.untried_actions ≠ []
       ∧ a = n.untried_actions.getD (g k % n.untried_actions.length) 0
       ∧ BJ.rollout g (BJ.expand g (k + 1) n a).2.2 (BJ.expand g (k + 1) n a).2.1
           = .ok (c', r, k')
       ∧ res = (.mk n.state n.action
                  (BJ.updateB (n.children ++ [(a, (BJ.expand g (k + 1) n a).2.1)]) a
                    (.mk c'.state c'.action c'.children (c'.visits + 1) (c'.value + r)
                       c'.untried_actions c'.is_terminated))
                  (n.visits + 1) (n.value + r) (n.untried_actions.erase a) n.is_terminated,
                r, [a], k'))
  ∨ (∃ n' r k', n.is_terminated = true
       ∧ BJ.rollout g k n = .ok (n', r, k')
       ∧ res = (.mk n'.state n'.action n'.children (n'.visits + 1) (n'.value + r)
                  n'.untried_actions n'.is_terminated, r, [], k')) := by
  rw [BJ.simulateB] at h
  split at h
  · rename_i hsel
    left
    cases hcb : BJ.choose_best_child n 1 with
    | none => rw [hcb] at h; cases h
    | some ac =>
      obtain ⟨a, c⟩ := ac
      rw [hcb] at h
      dsimp only at h
      cases hrec : BJ.simulateB g fuel k c with
      | error e => rw [hrec] at h; cases h
      | ok out =>
        obtain ⟨c', r, p, k'⟩ := out
        rw [hrec] at h
        dsimp only at h
        cases h
        exact ⟨a, c, c', r, p, k', hsel.1, hsel.2, rfl, hrec, rfl⟩
  · rename_i hsel
    split at h
    · rename_i hterm
      right; left
      have hne : n.untried_actions ≠ [] := fun hA => hsel ⟨hterm, hA⟩
      dsimp only at h
      cases hro : BJ.rollout g
          (BJ.expand g (k + 1) n
            (n.untried_actions.getD (g k % n.untried_actions.length) 0)).2.2
          (BJ.expand g (k + 1) n
            (n.untried_actions.getD (g k % n.untried_actions.length) 0)).2.1 with
      | error e => rw [hro] at h; cases h
      | ok out =>
        obtain ⟨c', r, k'⟩ := out
        rw [hro] at h
        dsimp only at h
        cases h
        exact ⟨_, c', r, k', hterm, hne, rfl, hro, rfl⟩
    · rename_i hterm
      right; right
      have ht : n.is_terminated = true := by
        cases hh : n.is_terminated
        · exact absurd hh hterm
        · rfl
      cases hro : BJ.rollout g k n with
      | error e => rw [hro] at h; cases h
      | ok out =>
        obtain ⟨n', r, k'⟩ := out
        rw [hro] at h
        dsimp only at h
        cases h
        exact ⟨n', r, k', ht, rfl, rfl⟩

/-! ## Blackjack: visits increase by one per simulation; the tree invariant -/

theorem simulateB_visits (g : ℕ → ℕ) (fuel k : ℕ) (n : BJ.BJNode)
    (res : BJ.BJNode × ℤ × List ℕ × ℕ) (h : BJ.simulateB g fuel k n = .ok res) :
    res.1.visits = n.visits + 1 := by
  cases fuel with
  | zero => cases h
  | succ fuel =>
    rcases simulateB_ok_cases g fuel k n res h with
      ⟨a, c, c', r, p, k', _, _, _, _, hres⟩ | ⟨a, c', r, k', _, _, _, _, hres⟩ |
      ⟨n', r, k', _, hro, hres⟩
    · subst hres; rfl
    · subst hres; rfl
    · subst hres
      have := rollout_frame g k n (n', r, k') hro
      dsimp only at this
      rw [this]
      rfl

theorem mctsLoopB_visits : ∀ (count : ℕ) (g : ℕ → ℕ) (k : ℕ) (t : BJ.BJNode)
    (res : BJ.BJNode × List (List ℕ) × ℕ), BJ.mctsLoopB g k t count = .ok res →
    res.1.visits = t.visits + count := by
  intro count
  induction count with
  | zero =>
    intro g k t res h
    rw [BJ.mctsLoopB] at h
    cases h
    rfl
  | succ count ihc =>
    intro g k t res h
    rw [BJ.mctsLoopB] at h
    cases hsim : BJ.simulateB g (sizeOf t) k t with
    | error e => rw [hsim] at h; cases h
    | ok out =>
      rw [hsim] at h
      obtain ⟨t', r, p, k'⟩ := out
      dsimp only at h
      cases hloop : BJ.mctsLoopB g k' t' count with
      | error e => rw [hloop] at h; cases h
      | ok out2 =>
        rw [hloop] at h
        obtain ⟨t'', ps, k''⟩ := out2
        dsimp only at h
        cases h
        have h1 := simulateB_visits g (sizeOf t) k t (t', r, p, k') hsim
        have h2 := ihc g k' t' (t'', ps, k'') hloop
        dsimp only at h1 h2 ⊢
        omega

theorem invB_node (n : BJ.BJNode) (h : BJ.InvB n) : BJ.InvNodeB n := by
  cases h; assumption

theorem invB_children (n : BJ.BJNode) (h : BJ.InvB n) :
    ∀ ac ∈ n.children, BJ.InvB ac.2 := by
  cases h; assumption

theorem invB_mkNode (s : ℤ × ℤ × ℤ) (action : Option ℕ) : BJ.InvB (BJ.mkNode s action) := by
  refine BJ.InvB.mk _ ⟨?_, List.nodup_nil, ?_, ?_, ?_⟩ ?_
  · show ([0, 1] : List ℕ).Nodup
    decide
  · intro a _ hk
    simp [BJ.mkNode, BJ.keysB, AList.keysOf] at hk
  · intro a ha
    show a = 0 ∨ a = 1
    have : a ∈ ([0, 1] : List ℕ) := ha
    simpa using this
  · intro ac hac
    simp [BJ.mkNode] at hac
  · intro ac hac
    simp [BJ.mkNode] at hac

theorem simulateB_inv : ∀ (fuel : ℕ) (g : ℕ → ℕ) (k : ℕ) (n : BJ.BJNode)
    (res : BJ.BJNode × ℤ × List ℕ × ℕ), BJ.InvB n → BJ.simulateB g fuel k n = .ok res →
    BJ.InvB res.1 ∧ res.1.action = n.action := by
  intro fuel
  induction fuel with
  | zero => intro g k n res _ h; cases h
  | succ fuel ih =>
    intro g k n res hInv h
    obtain ⟨hu_nd, hk_nd, hdisj, husub, hcsub⟩ := invB_node n hInv
    rcases simulateB_ok_cases g fuel k n res h with
      ⟨a, c, c', r, p, k', hterm, hu, hcb, hrec, hres⟩ |
      ⟨a, c', r, k', hterm, hne, ha_def, hro, hres⟩ | ⟨n', r, k', hterm, hro, hres⟩
    · -- Selection
      subst hres
      have hmem : (a, c) ∈ n.children := bj_choose_best_mem n _ _ hcb
      have hcInv : BJ.InvB c := invB_children n hInv (a, c) hmem
      obtain ⟨hc'Inv, hc'act⟩ := ih g k c (c', r, p, k') hcInv hrec
      have hact_c : c.action = some a := (hcsub (a, c) hmem).2
      have hkey_a : a = 0 ∨ a = 1 := (hcsub (a, c) hmem).1
      refine ⟨BJ.InvB.mk _ ⟨hu_nd, ?_, ?_, husub, ?_⟩ ?_, rfl⟩
      · show (BJ.keysB (BJ.updateB n.children a c')).Nodup
        simp only [BJ.keysB, BJ.updateB]
        rw [alist_keys_upd]
        exact hk_nd
      · intro b hb
        show b ∉ BJ.keysB (BJ.updateB n.children a c')
        simp only [BJ.keysB, BJ.updateB]
        rw [alist_keys_upd]
        exact hdisj b hb
      · intro ac hac
        simp only [bjnode_children_mk, BJ.updateB, AList.upd, List.mem_map] at hac
        obtain ⟨old, hold, heq⟩ := hac
        by_cases hx : old.1 = a
        · rw [if_pos hx] at heq
          subst heq
          refine ⟨hkey_a, ?_⟩
          show c'.action = some a
          rw [hc'act, hact_c]
        · rw [if_neg hx] at heq
          subst heq
          exact hcsub old hold
      · intro ac hac
        simp only [bjnode_children_mk, BJ.updateB, AList.upd, List.mem_map] at hac
        obtain ⟨old, hold, heq⟩ := hac
        by_cases hx : old.1 = a
        · rw [if_pos hx] at heq
          subst heq
          exact hc'Inv
        · rw [if_neg hx] at heq
          subst heq
          exact invB_children n hInv old hold
    · -- Expansion
      subst hres
      have ha_mem : a ∈ n.untried_actions := by rw [ha_def]; exact getD_mod_mem _ hne _ _
      have ha_notk : a ∉ BJ.keysB n.children := hdisj a ha_mem
      have ha01 : a = 0 ∨ a = 1 := husub a ha_mem
      have hchild : (BJ.expand g (k + 1) n a).2.1
          = BJ.mkNode (BJ.simulate_step g (k + 1) n.state a).1 (some a) := rfl
      have hroll := rolloutLoopB_frame g (BJ.expand g (k + 1) n a).2.1 _
          (BJ.expand g (k + 1) n a).2.2
          (BJ.expand g (k + 1) n a).2.1.state none (c', r, k') hro
      dsimp only at hroll
      have hupd : BJ.updateB (n.children ++ [(a, (BJ.expand g (k + 1) n a).2.1)]) a
            (.mk c'.state c'.action c'.children (c'.visits + 1) (c'.value + r)
               c'.untried_actions c'.is_terminated)
          = n.children ++ [(a, .mk c'.state c'.action c'.children (c'.visits + 1)
               (c'.value + r) c'.untried_actions c'.is_terminated)] := by
        simp only [BJ.updateB]
        exact alist_upd_append_fresh n.children a _ _ ha_notk
      rw [hupd]
      have hc'eq : c' = BJ.mkNode (BJ.simulate_step g (k + 1) n.state a).1 (some a) := by
        rw [hroll, hchild]
      have hchild1Inv : BJ.InvB (.mk c'.state c'.action c'.children (c'.visits + 1)
          (c'.value + r) c'.untried_actions c'.is_terminated) := by
        subst hc'eq
        refine BJ.InvB.mk _ ⟨?_, List.nodup_nil, ?_, ?_, ?_⟩ ?_
        · show ([0, 1] : List ℕ).Nodup
          decide
        · intro b _ hk
          simp [BJ.mkNode, BJ.keysB, AList.keysOf] at hk
        · intro b hb
          have : b ∈ ([0, 1] : List ℕ) := hb
          simpa using this
        · intro ac hac
          simp [BJ.mkNode] at hac
        · intro ac hac
          simp [BJ.mkNode] at hac
      refine ⟨BJ.InvB.mk _ ⟨hu_nd.erase a, ?_, ?_, ?_, ?_⟩ ?_, rfl⟩
      · show (BJ.keysB (n.children ++ [(a, _)])).Nodup
        simp only [BJ.keysB, AList.keysOf, List.map_append, List.map_cons, List.map_nil]
        rw [List.nodup_append]
        refine ⟨hk_nd, List.nodup_singleton a, ?_⟩
        intro b hb hb'
        simp at hb'
        subst hb'
        exact ha_notk hb
      · intro b hb
        have hb' := (List.Nodup.mem_erase_iff hu_nd).mp hb
        show b ∉ BJ.keysB (n.children ++ [(a, _)])
        simp only [BJ.keysB, AList.keysOf, List.map_append, List.map_cons, List.map_nil]
        rw [List.mem_append]
        rintro (hcase | hcase)
        · exact hdisj b hb'.2 hcase
        · simp at hcase
          exact hb'.1 hcase
      · intro b hb
        exact husub b (List.mem_of_mem_erase hb)
      · intro ac hac
        rcases List.mem_append.mp hac with hold | hnew
        · exact hcsub ac hold
        · simp at hnew
          subst hnew
          refine ⟨ha01, ?_⟩
          show c'.action = some a
          rw [hc'eq]
          rfl
      · intro ac hac
        rcases List.mem_append.mp hac with hold | hnew
        · exact invB_children n hInv ac hold
        · simp at hnew
          subst hnew
          exact hchild1Inv
    · -- Terminal
      subst hres
      have hfr := rollout_frame g k n (n', r, k') hro
      dsimp only at hfr
      rw [hfr]
      exact ⟨BJ.InvB.mk _ ⟨hu_nd, hk_nd, hdisj, husub, hcsub⟩ (invB_children n hInv), rfl⟩

theorem mctsLoopB_inv : ∀ (count : ℕ) (g : ℕ → ℕ) (k : ℕ) (t : BJ.BJNode)
    (res : BJ.BJNode × List (List ℕ) × ℕ), BJ.InvB t → BJ.mctsLoopB g k t count = .ok res →
    BJ.InvB res.1 := by
  intro count
  induction count with
  | zero =>
    intro g k t res hInv h
    rw [BJ.mctsLoopB] at h
    cases h
    exact hInv
  | succ count ihc =>
    intro g k t res hInv h
    rw [BJ.mctsLoopB] at h
    cases hsim : BJ.simulateB g (sizeOf t) k t with
    | error e => rw [hsim] at h; cases h
    | ok out =>
      rw [hsim] at h
      obtain ⟨t', r, p, k'⟩ := out
      dsimp only at h
      cases hloop : BJ.mctsLoopB g k' t' count with
      | error e => rw [hloop] at h; cases h
      | ok out2 =>
        rw [hloop] at h
        obtain ⟨t'', ps, k''⟩ := out2
        dsimp only at h
        cases h
        exact ihc g k' t' (t'', ps, k'')
          ((simulateB_inv (sizeOf t) g k t (t', r, p, k') hInv hsim).1) hloop

/-! ## Blackjack visit counts: one simulation adds one visit along its path -/

theorem countAtB_nil (n : BJ.BJNode) : BJ.countAtB [] n = n.visits := rfl

theorem countAtB_cons_none (b : ℕ) (q : List ℕ) (n : BJ.BJNode)
    (h : BJ.lookupChildB n.children b = none) : BJ.countAtB (b :: q) n = 0 := by
  rw [BJ.countAtB, h]

theorem countAtB_cons_some (b : ℕ) (q : List ℕ) (n : BJ.BJNode) (c : BJ.BJNode)
    (h : BJ.lookupChildB n.children b = some c) :
    BJ.countAtB (b :: q) n = BJ.countAtB q c := by
  rw [BJ.countAtB, h]

theorem countAtB_congr (m n : BJ.BJNode) (b : ℕ) (q : List ℕ)
    (hh : BJ.lookupChildB m.children b = BJ.lookupChildB n.children b) :
    BJ.countAtB (b :: q) m = BJ.countAtB (b :: q) n := by
  cases hlk : BJ.lookupChildB n.children b with
  | none => rw [countAtB_cons_none b q m (hh.trans hlk), countAtB_cons_none b q n hlk]
  | some cb =>
    rw [countAtB_cons_some b q m cb (hh.trans hlk), countAtB_cons_some b q n cb hlk]

theorem countAtB_mkNode (s : ℤ × ℤ × ℤ) (action : Option ℕ) (q : List ℕ) :
    BJ.countAtB q (BJ.mkNode s action) = 0 := by
  cases q with
  | nil => rfl
  | cons b q' => exact countAtB_cons_none b q' _ rfl

theorem simulateB_count : ∀ (fuel : ℕ) (g : ℕ → ℕ) (k : ℕ) (n : BJ.BJNode)
    (res : BJ.BJNode × ℤ × List ℕ × ℕ), BJ.InvB n → BJ.simulateB g fuel k n = .ok res →
    ∀ q, BJ.countAtB q res.1
      = BJ.countAtB q n + (if MC.pathLe q res.2.2.1 = true then 1 else 0) := by
  intro fuel
  induction fuel with
  | zero => intro g k n res _ h; cases h
  | succ fuel ih =>
    intro g k n res hInv h q
    obtain ⟨hu_nd, hk_nd, hdisj, husub, hcsub⟩ := invB_node n hInv
    rcases simulateB_ok_cases g fuel k n res h with
      ⟨a, c, c', r, p, k', hterm, hu, hcb, hrec, hres⟩ |
      ⟨a, c', r, k', hterm, hne, ha_def, hro, hres⟩ | ⟨n', r, k', hterm, hro, hres⟩
    · -- Selection
      subst hres
      have hmem : (a, c) ∈ n.children := bj_choose_best_mem n _ _ hcb
      have hfind : BJ.lookupChildB n.children a = some c :=
        alist_find_of_mem_nodup n.children a c hk_nd hmem
      have hcInv : BJ.InvB c := invB_children n hInv (a, c) hmem
      cases q with
      | nil => simp [countAtB_nil, pathLe_nil]
      | cons b q' =>
        by_cases hba : b = a
        · subst hba
          have hupd : BJ.lookupChildB
              (BJ.BJNode.mk n.state n.action (BJ.updateB n.children b c') (n.visits + 1)
                (n.value + r) n.untried_actions n.is_terminated).children b = some c' := by
            show BJ.lookupChildB (BJ.updateB n.children b c') b = some c'
            simp only [BJ.lookupChildB, BJ.updateB]
            exact alist_find_upd_found n.children b c' c hfind
          rw [countAtB_cons_some b q' _ c' hupd, countAtB_cons_some b q' n c hfind,
              ih g k c (c', r, p, k') hcInv hrec q']
          rw [pathLe_cons_cons]
          simp
        · have hupd : BJ.lookupChildB
              (BJ.BJNode.mk n.state n.action (BJ.updateB n.children a c') (n.visits + 1)
                (n.value + r) n.untried_actions n.is_terminated).children b
              = BJ.lookupChildB n.children b := by
            show BJ.lookupChildB (BJ.updateB n.children a c') b = BJ.lookupChildB n.children b
            simp only [BJ.lookupChildB, BJ.updateB]
            exact alist_find_upd_ne n.children a b c' hba
          rw [countAtB_congr _ n b q' hupd, pathLe_cons_cons]
          simp [hba]
    · -- Expansion
      subst hres
      have ha_mem : a ∈ n.untried_actions := by
        rw [ha_def]
        exact getD_mod_mem _ hne _ _
      have ha_notk : a ∉ BJ.keysB n.children := hdisj a ha_mem
      have hnone : BJ.lookupChildB n.children a = none := by
        simp only [BJ.lookupChildB]
        exact alist_find_none n.children a ha_notk
      have hroll := rolloutLoopB_frame g (BJ.expand g (k + 1) n a).2.1 _
          (BJ.expand g (k + 1) n a).2.2
          (BJ.expand g (k + 1) n a).2.1.state none (c', r, k') hro
      dsimp only at hroll
      have hc'eq : c' = BJ.mkNode (BJ.simulate_step g (k + 1) n.state a).1 (some a) :=
        hroll.trans (bj_expand_snd g (k + 1) n a)
      have hupd : BJ.updateB (n.children ++ [(a, (BJ.expand g (k + 1) n a).2.1)]) a
            (.mk c'.state c'.action c'.children (c'.visits + 1) (c'.value + r)
               c'.untried_actions c'.is_terminated)
          = n.children ++ [(a, .mk c'.state c'.action c'.children (c'.visits + 1)
               (c'.value + r) c'.untried_actions c'.is_terminated)] := by
        simp only [BJ.updateB]
        exact alist_upd_append_fresh n.children a _ _ ha_notk
      rw [hupd]
      cases q with
      | nil => simp [countAtB_nil, pathLe_nil]
      | cons b q' =>
        by_cases hba : b = a
        · rw [hba]
          have hfind : BJ.lookupChildB
              (BJ.BJNode.mk n.state n.action
                (n.children ++ [(a, .mk c'.state c'.action c'.children (c'.visits + 1)
                   (c'.value + r) c'.untried_actions c'.is_terminated)])
                (n.visits + 1) (n.value + r) (n.untried_actions.erase a)
                n.is_terminated).children a
              = some (.mk c'.state c'.action c'.children (c'.visits + 1) (c'.value + r)
                 c'.untried_actions c'.is_terminated) := by
            show BJ.lookupChildB (n.children ++ _) a = _
            simp only [BJ.lookupChildB]
            rw [alist_find_append_right _ _ _ hnone, alist_find_cons]
            simp
          rw [countAtB_cons_some a q' _ _ hfind, countAtB_cons_none a q' n hnone]
          cases q' with
          | nil =>
            rw [countAtB_nil]
            simp [hc'eq, BJ.mkNode, pathLe_cons_cons, pathLe_nil]
          | cons x q'' =>
            have hnil : BJ.lookupChildB
                (BJ.BJNode.mk c'.state c'.action c'.children (c'.visits + 1) (c'.value + r)
                  c'.untried_actions c'.is_terminated).children x = none := by
              show BJ.lookupChildB c'.children x = none
              rw [hc'eq]
              rfl
            rw [countAtB_cons_none x q'' _ hnil]
            simp [pathLe_cons_cons, pathLe_cons_nil]
        · have hfind : BJ.lookupChildB
              (BJ.BJNode.mk n.state n.action
                (n.children ++ [(a, .mk c'.state c'.action c'.children (c'.visits + 1)
                   (c'.value + r) c'.untried_actions c'.is_terminated)])
                (n.visits + 1) (n.value + r) (n.untried_actions.erase a)
                n.is_terminated).children b
              = BJ.lookupChildB n.children b := by
            show BJ.lookupChildB (n.children ++ _) b = BJ.lookupChildB n.children b
            simp only [BJ.lookupChildB]
            cases hlk : AList.find n.children b with
            | none =>
              rw [alist_find_append_right _ _ _ hlk, alist_find_cons]
              rw [if_neg (fun hh : a = b => hba hh.symm)]
              rfl
            | some cb => exact alist_find_append_left _ _ _ _ hlk
          rw [countAtB_congr _ n b q' hfind, pathLe_cons_cons]
          simp [hba]
    · -- Terminal
      subst hres
      have hfr := rollout_frame g k n (n', r, k') hro
      dsimp only at hfr
      rw [hfr]
      cases q with
      | nil => simp [countAtB_nil, pathLe_nil]
      | cons b q' =>
        rw [countAtB_congr
              (BJ.BJNode.mk n.state n.action n.children (n.visits + 1) (n.value + r)
                n.untried_actions n.is_terminated) n b q' rfl,
            pathLe_cons_nil]
        simp

theorem mctsLoopB_spec : ∀ (count : ℕ) (g : ℕ → ℕ) (k : ℕ) (t : BJ.BJNode)
    (res : BJ.BJNode × List (List ℕ) × ℕ), BJ.InvB t → BJ.mctsLoopB g k t count = .ok res →
    BJ.InvB res.1 ∧ res.2.1.length = count
      ∧ ∀ q, BJ.countAtB q res.1 = BJ.countAtB q t + MC.cntThrough res.2.1 q := by
  intro count
  induction count with
  | zero =>
    intro g k t res hInv h
    rw [BJ.mctsLoopB] at h
    cases h
    refine ⟨hInv, rfl, fun q => ?_⟩
    show BJ.countAtB q t = BJ.countAtB q t + MC.cntThrough [] q
    rw [cntThrough_nil, Nat.add_zero]
  | succ count ihc =>
    intro g k t res hInv h
    rw [BJ.mctsLoopB] at h
    cases hsim : BJ.simulateB g (sizeOf t) k t with
    | error e => rw [hsim] at h; cases h
    | ok out =>
      rw [hsim] at h
      obtain ⟨t', r, p, k'⟩ := out
      dsimp only at h
      cases hloop : BJ.mctsLoopB g k' t' count with
      | error e => rw [hloop] at h; cases h
      | ok out2 =>
        rw [hloop] at h
        obtain ⟨t'', ps, k''⟩ := out2
        dsimp only at h
        cases h
        have hI1 := (simulateB_inv (sizeOf t) g k t (t', r, p, k') hInv hsim).1
        obtain ⟨hI2, hL2, hC2⟩ := ihc g k' t' (t'', ps, k'') hI1 hloop
        refine ⟨hI2, by simp [hL2], fun q => ?_⟩
        have hc1 := simulateB_count (sizeOf t) g k t (t', r, p, k') hInv hsim q
        have hc2 := hC2 q
        dsimp only at hc1 hc2 ⊢
        rw [hc2, hc1, cntThrough_cons]
        omega

/-! ## C5 -/

/-- C5: after `N` simulations from a fresh root, the root's visit count is
exactly `N`, and the visit count of every node of the final tree equals the
number of recorded selection/backpropagation paths passing through that node
— in both engines. -/
theorem c5_visit_counts :
    (∀ (env : T3.Env) (N : ℕ) (g : ℕ → ℕ) (t : MC.NodeT) (ps : List (List ℕ)) (k' : ℕ),
        MC.mctsLoop g 0 (MC.mkNode env none) N = .ok (t, ps, k') →
        t.visit = N ∧ ∀ q, MC.countAt q t = MC.cntThrough ps q)
  ∧ (∀ (s : ℤ × ℤ × ℤ) (N : ℕ) (g : ℕ → ℕ) (t : BJ.BJNode) (ps : List (List ℕ)) (k' : ℕ),
        BJ.mctsLoopB g 0 (BJ.mkNode s none) N = .ok (t, ps, k') →
        t.visits = N ∧ ∀ q, BJ.countAtB q t = MC.cntThrough ps q) := by
  constructor
  · intro env N g t ps k' h
    obtain ⟨_, _, hlen, hcnt⟩ := mctsLoop_spec N g 0 (MC.mkNode env none) (t, ps, k')
      (invT_mkNode env none) h
    dsimp only at hlen hcnt
    have hq : ∀ q, MC.countAt q t = MC.cntThrough ps q := by
      intro q
      rw [hcnt q, countAt_mkNode, Nat.zero_add]
    refine ⟨?_, hq⟩
    have h0 := hq []
    rw [countAt_nil, cntThrough_root] at h0
    rw [h0, hlen]
  · intro s N g t ps k' h
    obtain ⟨_, hlen, hcnt⟩ := mctsLoopB_spec N g 0 (BJ.mkNode s none) (t, ps, k')
      (invB_mkNode s none) h
    dsimp only at hlen hcnt
    have hq : ∀ q, BJ.countAtB q t = MC.cntThrough ps q := by
      intro q
      rw [hcnt q, countAtB_mkNode, Nat.zero_add]
    refine ⟨?_, hq⟩
    have h0 := hq []
    rw [countAtB_nil, cntThrough_root] at h0
    rw [h0, hlen]

/-- C5 witness: one simulation on the one-move-left board `e0` gives the
tictactoe root one visit, with the per-node count realized at the expanded
child's path `[8]`; one simulation on the bust state `(22, 5, 0)` gives the
blackjack root one visit, with the per-node count realized at the root path. -/
theorem c5_witness :
    MC.mctsLoop g0 0 (MC.mkNode e0 none) 1 = .ok (t0, [[8]], 1)
  ∧ t0.visit = 1
  ∧ MC.countAt [8] t0 = MC.cntThrough [[8]] [8]
  ∧ BJ.mctsLoopB g0 0 (BJ.mkNode (22, 5, 0) none) 1
      = .ok (.mk (22, 5, 0) none [] 1 (-1) [0, 1] true, [[]], 0)
  ∧ (BJ.BJNode.mk (22, 5, 0) none [] 1 (-1) [0, 1] true).visits = 1
  ∧ BJ.countAtB [] (.mk (22, 5, 0) none [] 1 (-1) [0, 1] true)
      = MC.cntThrough [[]] [] := by
  have h1 : MC.mctsLoop g0 0 (MC.mkNode e0 none) 1 = .ok (t0, [[8]], 1) := rfl
  have h2 : BJ.mctsLoopB g0 0 (BJ.mkNode (22, 5, 0) none) 1
      = .ok (.mk (22, 5, 0) none [] 1 (-1) [0, 1] true, [[]], 0) := rfl
  exact ⟨h1, (c5_visit_counts.1 e0 1 g0 t0 [[8]] 1 h1).1,
    (c5_visit_counts.1 e0 1 g0 t0 [[8]] 1 h1).2 [8], h2,
    (c5_visit_counts.2 (22, 5, 0) 1 g0 _ [[]] 0 h2).1,
    (c5_visit_counts.2 (22, 5, 0) 1 g0 _ [[]] 0 h2).2 []⟩

/-! ## C7 -/

/-- C7: in both engines the invariant — untried actions and children keys are
disjoint duplicate-free sets whose union stays inside the legal-action set
fixed at node construction — holds for a fresh node and is preserved by every
simulation; and expansion moves exactly one action from the untried list to
the children keys. -/
theorem c7_untried_children_invariant :
    (∀ (env : T3.Env) (action : Option ℕ), MC.InvT (MC.mkNode env action))
  ∧ (∀ (g : ℕ → ℕ) (fuel k : ℕ) (n : MC.NodeT) (res : MC.NodeT × ℤ × List ℕ × ℕ),
        MC.InvT n → MC.simulateT g fuel k n = .ok res → MC.InvT res.1)
  ∧ (∀ (n : MC.NodeT) (a : ℕ),
        (MC.expand_child n a).1.untried_action = n.untried_action.erase a
        ∧ (MC.expand_child n a).1.children = n.children ++ [(a, (MC.expand_child n a).2)])
  ∧ (∀ (s : ℤ × ℤ × ℤ) (action : Option ℕ), BJ.InvB (BJ.mkNode s action))
  ∧ (∀ (g : ℕ → ℕ) (fuel k : ℕ) (n : BJ.BJNode) (res : BJ.BJNode × ℤ × List ℕ × ℕ),
        BJ.InvB n → BJ.simulateB g fuel k n = .ok res → BJ.InvB res.1)
  ∧ (∀ (g : ℕ → ℕ) (k : ℕ) (n : BJ.BJNode) (a : ℕ),
        (BJ.expand g k n a).1.untried_actions = n.untried_actions.erase a
        ∧ (BJ.expand g k n a).1.children = n.children ++ [(a, (BJ.expand g k n a).2.1)]) :=
  ⟨invT_mkNode, fun g fuel k n res hI h => (simulateT_inv fuel g k n res hI h).1,
   fun _ _ => ⟨rfl, rfl⟩, invB_mkNode,
   fun g fuel k n res hI h => (simulateB_inv fuel g k n res hI h).1,
   fun _ _ _ _ => ⟨rfl, rfl⟩⟩

/-- C7 witness: the invariant holds for the concrete fresh root on `e0` and
for the tree after one concrete successful simulation from it. -/
theorem c7_witness :
    MC.InvT (MC.mkNode e0 none)
  ∧ MC.simulateT g0 3 0 (MC.mkNode e0 none) = .ok (t0, 0, [8], 1)
  ∧ MC.InvT t0 := by
  have hInv : MC.InvT (MC.mkNode e0 none) := c7_untried_children_invariant.1 e0 none
  have hrun : MC.simulateT g0 3 0 (MC.mkNode e0 none) = .ok (t0, 0, [8], 1) := rfl
  have := c7_untried_children_invariant.2.1 g0 3 0 (MC.mkNode e0 none) (t0, 0, [8], 1)
    hInv hrun
  exact ⟨hInv, hrun, this⟩

/-! ## C10 -/

/-- C10: a successfully returned recommendation is the incoming action of one
of the root's children, hence a member of the root state's legal-action set
(`{0, 1}` for blackjack). -/
theorem c10_returned_action_legal :
    (∀ (env : T3.Env) (N : ℕ) (g : ℕ → ℕ) (act : Option ℕ),
        1 ≤ N → env.done = false → MC.mcts env N g = .ok act →
        ∃ a, act = some a ∧ a ∈ T3.get_valid_actions env)
  ∧ (∀ (s : ℤ × ℤ × ℤ) (N : ℕ) (g : ℕ → ℕ) (act : Option ℕ),
        1 ≤ N → BJ.mcts_search (BJ.mkNode s none) N g = .ok act →
        act = some 0 ∨ act = some 1) := by
  constructor
  · intro env N g act _ _ h
    rw [MC.mcts] at h
    cases hloop : MC.mctsLoop g 0 (MC.mkNode env none) N with
    | error e => rw [hloop] at h; cases h
    | ok out =>
      rw [hloop] at h
      obtain ⟨root', ps, k'⟩ := out
      dsimp only at h
      cases hcb : MC.choose_best_child root' 0 with
      | none => rw [hcb] at h; cases h
      | some bc =>
        rw [hcb] at h
        obtain ⟨b, c⟩ := bc
        dsimp only at h
        cases h
        obtain ⟨hI, hE, _, _⟩ := mctsLoop_spec N g 0 (MC.mkNode env none) (root', ps, k')
          (invT_mkNode env none) hloop
        dsimp only at hI hE
        have hmem : (b, c) ∈ root'.children := mc_choose_best_mem root' 0 (b, c) hcb
        obtain ⟨_, _, _, _, hcsub⟩ := invT_node root' hI
        obtain ⟨hbval, hcact⟩ := hcsub (b, c) hmem
        refine ⟨b, hcact, ?_⟩
        rw [hE] at hbval
        exact hbval
  · intro s N g act _ h
    rw [BJ.mcts_search] at h
    cases hloop : BJ.mctsLoopB g 0 (BJ.mkNode s none) N with
    | error e => rw [hloop] at h; cases h
    | ok out =>
      rw [hloop] at h
      obtain ⟨root', ps, k'⟩ := out
      dsimp only at h
      cases hcb : BJ.choose_best_child root' 0 with
      | none => rw [hcb] at h; cases h
      | some bc =>
        rw [hcb] at h
        obtain ⟨b, c⟩ := bc
        dsimp only at h
        cases h
        have hI := mctsLoopB_inv N g 0 (BJ.mkNode s none) (root', ps, k')
          (invB_mkNode s none) hloop
        dsimp only at hI
        have hmem : (b, c) ∈ root'.children := bj_choose_best_mem root' 0 (b, c) hcb
        obtain ⟨_, _, _, _, hcsub⟩ := invB_node root' hI
        obtain ⟨hb01, hcact⟩ := hcsub (b, c) hmem
        rw [hcact]
        rcases hb01 with hb | hb
        · exact Or.inl (by rw [hb])
        · exact Or.inr (by rw [hb])

/-- C10 witness: on `e0` with one simulation `mcts` returns action 8, the
single legal move; on `(15, 10, 0)` one blackjack simulation returns the
legal action 0. -/
theorem c10_witness :
    1 ≤ 1 ∧ e0.done = false
  ∧ MC.mcts e0 1 g0 = .ok (some 8)
  ∧ (∃ a, (some 8 : Option ℕ) = some a ∧ a ∈ T3.get_valid_actions e0)
  ∧ BJ.mcts_search (BJ.mkNode (15, 10, 0) none) 1 g0 = .ok (some 0)
  ∧ ((some 0 : Option ℕ) = some 0 ∨ (some 0 : Option ℕ) = some 1) := by
  have hmc : MC.mcts e0 1 g0 = .ok (some 8) := by
    have hloop : MC.mctsLoop g0 0 (MC.mkNode e0 none) 1 = .ok (t0, [[8]], 1) := rfl
    have hcb : MC.choose_best_child t0 0 = some (8, child1) := by
      simp [MC.choose_best_child, t0, child1, MC.calculate_ucb, EReal.bot_lt_coe]
    rw [MC.mcts, hloop]
    dsimp only
    rw [hcb]
    rfl
  have hbj : BJ.mcts_search (BJ.mkNode (15, 10, 0) none) 1 g0 = .ok (some 0) := by
    have hloop : BJ.mctsLoopB g0 0 (BJ.mkNode (15, 10, 0) none) 1
        = .ok (bjRoot1, [[0]], 3) := rfl
    have hne : ((bj1.visits : ℕ) : ℝ) ≠ 0 := by
      show ((1 : ℕ) : ℝ) ≠ 0
      norm_num
    have hlt : ((((-100 : ℝ) : EReal), (none : Option (ℕ × BJ.BJNode))).1)
        < BJ.calculate_ucb (bj1.value : ℝ) (bj1.visits : ℝ) (bjRoot1.visits : ℝ) 0 := by
      rw [BJ.calculate_ucb, if_neg hne]
      show ((-100 : ℝ) : EReal) < _
      rw [EReal.coe_lt_coe_iff]
      show (-100 : ℝ) < (bj1.value : ℝ) / (bj1.visits : ℝ)
        + (0 : ℝ) * Real.sqrt (2 * Real.log (bjRoot1.visits : ℝ) / (bj1.visits : ℝ))
      have h1 : ((bj1.value : ℤ) : ℝ) = (-1 : ℝ) := by norm_num [bj1]
      have h2 : ((bj1.visits : ℕ) : ℝ) = (1 : ℝ) := by norm_num [bj1]
      rw [h1, h2]
      norm_num
    have hcb : BJ.choose_best_child bjRoot1 0 = some (0, bj1) := by
      rw [BJ.choose_best_child]
      show ((bjRoot1.children).foldl _ (((-100 : ℝ) : EReal), none)).2 = _
      rw [show bjRoot1.children = [(0, bj1)] from rfl, List.foldl_cons, List.foldl_nil]
      dsimp only
      rw [if_pos hlt]
    rw [BJ.mcts_search, hloop]
    dsimp only
    rw [hcb]
    rfl
  exact ⟨Nat.le_refl 1, rfl, hmc,
    c10_returned_action_legal.1 e0 1 g0 (some 8) (Nat.le_refl 1) rfl hmc, hbj,
    c10_returned_action_legal.2 (15, 10, 0) 1 g0 (some 0) (Nat.le_refl 1) hbj⟩
